import Mathlib

/-!
Verification of the core of the `split-reads` tool: a shallow embedding of the
split-index builder, the downsizer, the index (de)serializer, the chunk
extractor, the seekable chain reader and the delimiter splitter / FASTQ codec,
with theorems about the properties claimed in the specification.

Modelling conventions:
* A source record stream is a `List Rec`; a record carries its query name
  (`qname`) and an opaque payload standing for sequence and qualities.
* Reader state is the pair of a position (`Nat`) and the list of records;
  `tell` before reading the record at position `p` returns `p`, and seeking to
  an offset restores that position, exactly as for the in-memory readers the
  tool layers over files.  File offsets stored in the index are therefore
  record positions.
* `usize`/`u64` counters are modelled as `Nat`; byte buffers are `List Nat`
  with each entry `< 256` where it matters.
* Rust `Result` becomes `Option` (`none` = `Err`); `Option<T>` returned for a
  possibly-empty chunk stays a nested `Option`.
* `while` loops become recursions that are structural either on the unread
  suffix of the stream or on an explicitly supplied iteration count that
  matches the loop bound in the source.
-/

set_option maxHeartbeats 1000000
set_option maxRecDepth 10000

/-- One record of a reads file (`ChunkableRecord`): the chunking logic only
ever inspects the query name; `payload` stands for the opaque remainder
(sequence, qualities, alignment fields). -/
structure Rec where
  qname : Nat
  payload : Nat
deriving DecidableEq, Repr

/-- `SplitRecord` from `split_index.rs`: one bin of the split index. -/
structure SplitRecord where
  offset : Nat
  num_queries : Nat
  num_reads : Nat
deriving DecidableEq, Repr

instance : Inhabited SplitRecord := ⟨⟨0, 0, 0⟩⟩

/-- A `SplitIndex` is its vector of split records. -/
abbrev SplitIndex := List SplitRecord

/-- `SplitRange` from `chunkable.rs`. -/
structure SplitRange where
  offset : Nat
  num_previous_queries : Nat
  num_end_queries : Nat
  num_previous_reads : Nat
  num_end_reads : Nat
deriving DecidableEq, Repr

/-- `SplitIndex::num_queries`: cumulative query count of the last bin, 0 for an
empty index. -/
def numQueries (idx : SplitIndex) : Nat :=
  match idx.getLast? with
  | some sr => sr.num_queries
  | none => 0

/-- `SplitIndex::num_reads`. -/
def numReads (idx : SplitIndex) : Nat :=
  match idx.getLast? with
  | some sr => sr.num_reads
  | none => 0

/-- `SplitIndex::start_next_record`. -/
def startNextRecord (idx : SplitIndex) (offset : Nat) : SplitRecord :=
  ⟨offset, numQueries idx + 1, numReads idx + 1⟩

/-- The loop of `SplitIndex::build` over the records after the first one.
`pos` is the reader offset of the record about to be read (`reader.tell()`),
`cur` the split record being accumulated, `lastQ` the query name of the most
recently consumed record and `nextBin` the query count at which the next bin
may be cut.  The passthrough writer and the progress logging of the source
have no effect on the returned index and are not modelled. -/
def buildLoop (bins : Nat) : List Rec → Nat → SplitIndex → Nat → SplitRecord → Nat → SplitIndex
  | [], _pos, idx, _nextBin, cur, _lastQ => idx ++ [cur]
  | r :: rs, pos, idx, nextBin, cur, lastQ =>
    if r.qname = lastQ then
      buildLoop bins rs (pos + 1) idx nextBin ⟨cur.offset, cur.num_queries, cur.num_reads + 1⟩ lastQ
    else if cur.num_queries < nextBin then
      buildLoop bins rs (pos + 1) idx nextBin
        ⟨cur.offset, cur.num_queries + 1, cur.num_reads + 1⟩ r.qname
    else
      buildLoop bins rs (pos + 1) (idx ++ [cur])
        (nextBin + max 1 (numQueries (idx ++ [cur]) / bins))
        (startNextRecord (idx ++ [cur]) pos) r.qname

/-- `SplitIndex::build` for a reader positioned at the start of `stream`. -/
def build (bins : Nat) (stream : List Rec) : SplitIndex :=
  match stream with
  | [] => []
  | r :: rs => buildLoop bins rs 1 [] 1 ⟨0, 1, 1⟩ r.qname

/-- The binary-search loop of `bisect::bisect_left_by` (comparator
`record.num_queries.cmp(&target)`), with an explicit iteration budget: the
search interval shrinks at every step, so a budget of `a.length` (supplied by
`bisectLeft`) is never exhausted. -/
def bisectGo (a : SplitIndex) (target : Nat) : Nat → Nat → Nat → Nat
  | 0, lo, _hi => lo
  | fuel + 1, lo, hi =>
    if lo < hi then
      let mid := (lo + hi) / 2
      if (a.getD mid default).num_queries < target then bisectGo a target fuel (mid + 1) hi
      else bisectGo a target fuel lo mid
    else lo

/-- `bisect_left_by` over the whole record list. -/
def bisectLeft (a : SplitIndex) (target : Nat) : Nat :=
  bisectGo a target a.length 0 a.length

/-- `SplitIndex::index_to_bin_range`. -/
def indexToBinRange (idx : SplitIndex) (i : Nat) : Option SplitRange :=
  match idx[i]? with
  | none => none
  | some sr =>
    if i = 0 then some ⟨sr.offset, 0, sr.num_queries, 0, sr.num_reads⟩
    else
      match idx[i - 1]? with
      | none => none
      | some prev =>
        some ⟨sr.offset, prev.num_queries, sr.num_queries, prev.num_reads, sr.num_reads⟩

/-- `SplitIndex::get_record_for_num_queries` (trait `FastForwardIndex`). -/
def getRecordForNumQueries (idx : SplitIndex) (n : Nat) : Option SplitRange :=
  indexToBinRange idx (bisectLeft idx n)

/-- `SplitIndex::get_chunk_query_start` (trait `FastForwardIndex`); `none`
models the `Err` branch. -/
def getChunkQueryStart (idx : SplitIndex) (chunkIndex numChunks : Nat) : Option Nat :=
  if chunkIndex ≤ numChunks then
    some (chunkIndex * (numQueries idx / numChunks) +
      chunkIndex * (numQueries idx % numChunks) / numChunks)
  else none

/-- The loop of `SplitIndex::downsize_reads` over bins `1 .. num_bins`,
with the iteration count supplied as the first argument (`downsizeReads`
passes `M - 1`, matching `for bin in 1..num_bins`).  When the count is
exhausted the trailing "append the last original record" block runs.  List
indexing uses `getD`; all accesses are in bounds on every reachable path
(see `bisect_le_of_target_le_last`). -/
def downsizeGo (a : SplitIndex) (M : Nat) :
    Nat → Nat → SplitIndex → Nat → Option Nat → Option SplitIndex
  | 0, _bin, acc, lastOffset, _lastIndex =>
    match a.getLast? with
    | none => some acc
    | some last => some (acc ++ [⟨lastOffset, last.num_queries, last.num_reads⟩])
  | fuel + 1, bin, acc, lastOffset, lastIndex =>
    match getChunkQueryStart a bin M with
    | none => none
    | some target =>
      let i0 := bisectLeft a target
      let i :=
        if 0 < i0 ∧ target - (a.getD (i0 - 1) default).num_queries ≤
            (a.getD i0 default).num_queries - target
        then i0 - 1 else i0
      let proceed : Option SplitIndex :=
        if i + 1 < a.length then
          downsizeGo a M fuel (bin + 1)
            (acc ++ [⟨lastOffset, (a.getD i default).num_queries, (a.getD i default).num_reads⟩])
            (a.getD (i + 1) default).offset (some i)
        else
          some (acc ++ [⟨lastOffset, (a.getD i default).num_queries, (a.getD i default).num_reads⟩])
      match lastIndex with
      | some li =>
        if i ≤ li then downsizeGo a M fuel (bin + 1) acc lastOffset lastIndex
        else proceed
      | none => proceed

/-- `SplitIndex::downsize_reads`. -/
def downsizeReads (a : SplitIndex) (M : Nat) : Option SplitIndex :=
  if a.length < M then some a
  else
    match a.head? with
    | none => none
    | some first => downsizeGo a M (M - 1) 1 [] first.offset none

/-- Little-endian byte encoding (`to_le_bytes`) of a counter, `k` bytes. -/
def toLE : Nat → Nat → List Nat
  | 0, _n => []
  | k + 1, n => n % 256 :: toLE k (n / 256)

/-- Little-endian byte decoding (`from_le_bytes`). -/
def fromLE : List Nat → Nat
  | [] => 0
  | b :: bs => b + 256 * fromLE bs

/-- The bytes of the literal header prefix `"split-index "`. -/
def magicFront : List Nat := [115, 112, 108, 105, 116, 45, 105, 110, 100, 101, 120, 32]

/-- The bytes of the version string `"1.0"`. -/
def versionBytes : List Nat := [49, 46, 48]

/-- `SplitRecord::serialize` (appending to the byte buffer). -/
def serializeRecord (r : SplitRecord) : List Nat :=
  toLE 8 r.offset ++ toLE 8 r.num_queries ++ toLE 8 r.num_reads

/-- `SplitIndex::serialize`. -/
def serialize (idx : SplitIndex) : List Nat :=
  (magicFront ++ versionBytes ++ [10]) ++ toLE 8 idx.length ++ idx.flatMap serializeRecord

/-- `split_off(bytes, ..n)`: `Err` exactly when the buffer is shorter than
`n` (the range `..n` contains `bytes.len()` iff `bytes.len() < n`). -/
def splitOffN (n : Nat) (bytes : List Nat) : Option (List Nat × List Nat) :=
  if bytes.length < n then none else some (bytes.take n, bytes.drop n)

/-- `SplitIndex::check_header`: returns the version bytes and the unread rest.
The UTF-8 decoding of the version cannot change the subsequent comparison
with `"1.0"`, so the version stays a byte list. -/
def checkHeader (bytes : List Nat) : Option (List Nat × List Nat) :=
  match bytes.findIdx? (fun c => c = 10) with
  | none => none
  | some pos =>
    let header := bytes.take (pos + 1)
    if header.length < 12 then none
    else if header.take 12 = magicFront then
      some ((header.drop 12).dropLast, bytes.drop (pos + 1))
    else none

/-- `SplitRecord::deserialize`. -/
def deserializeRecord (bytes : List Nat) : Option (SplitRecord × List Nat) :=
  match splitOffN 8 bytes with
  | none => none
  | some (o, b1) =>
    match splitOffN 8 b1 with
    | none => none
    | some (q, b2) =>
      match splitOffN 8 b2 with
      | none => none
      | some (r, b3) => some (⟨fromLE o, fromLE q, fromLE r⟩, b3)

/-- The record-reading loop of `SplitIndex::deserialize`. -/
def parseRecords : Nat → List Nat → Option SplitIndex
  | 0, _bytes => some []
  | k + 1, bytes =>
    match deserializeRecord bytes with
    | none => none
    | some (r, rest) =>
      match parseRecords k rest with
      | none => none
      | some rs => some (r :: rs)

/-- `SplitIndex::deserialize`. -/
def deserialize (bytes : List Nat) : Option SplitIndex :=
  match checkHeader bytes with
  | none => none
  | some (version, rest) =>
    if version = versionBytes then
      match splitOffN 8 rest with
      | none => none
      | some (lenBytes, rest2) => parseRecords (fromLE lenBytes) rest2
    else none

/-- State of `FastForwardInfo` plus the borrowed reader: `rest` is the unread
suffix of the stream (the reader position is `stream.length - rest.length`). -/
structure FFInfo where
  num_queries : Nat
  stop_num_queries : Nat
  num_reads : Nat
  hard_stop_num_reads : Nat
  record : Rec
  rest : List Rec
deriving DecidableEq, Repr

/-- The skip loop of `ChunkableRecordReader::fast_forward`
(`while num_queries <= start_num_queries`): reads records, counting query-name
changes, until the requested number of query groups has been completed.
Structural on the unread suffix; `none` models the "file truncated" error of
`read_no_missing`. -/
def skipLoop (startQ : Nat) (rest : List Rec) (nq nr : Nat) (record : Rec) (lastQ : Nat) :
    Option (Rec × List Rec × Nat × Nat) :=
  if nq ≤ startQ then
    match rest with
    | [] => none
    | r :: rest' =>
      if r.qname = lastQ then skipLoop startQ rest' nq (nr + 1) r lastQ
      else skipLoop startQ rest' (nq + 1) (nr + 1) r r.qname
  else some (record, rest, nq, nr)

/-- `ChunkableRecordReader::fast_forward`.  Outer `none` is the `Err` branch;
`some none` is `Ok(None)` (an empty chunk). -/
def fastForward (stream : List Rec) (idx : SplitIndex) (chunkIndex numChunks : Nat) :
    Option (Option FFInfo) :=
  match getChunkQueryStart idx chunkIndex numChunks with
  | none => none
  | some startQ =>
    match getChunkQueryStart idx (chunkIndex + 1) numChunks with
    | none => none
    | some stopQ =>
      if stopQ ≤ startQ then some none
      else
        match getRecordForNumQueries idx startQ with
        | none => none
        | some range =>
          match getRecordForNumQueries idx stopQ with
          | none => none
          | some stopRange =>
            match stream.drop range.offset with
            | [] => none
            | r :: rest1 =>
              if range.num_previous_queries < startQ then
                match skipLoop startQ rest1 (range.num_previous_queries + 1)
                    (range.num_previous_reads + 1) r r.qname with
                | none => none
                | some (record, rest, nq, nr) =>
                  some (some ⟨nq, stopQ, nr, stopRange.num_end_reads, record, rest⟩)
              else
                some (some ⟨startQ + 1, stopQ, range.num_previous_reads + 1,
                  stopRange.num_end_reads, r, rest1⟩)

/-- The inner loop of `FastForwardInfo::write_chunk`
(`while self.record.qname() == last_query_name`): emits the remaining records
of the current query group and ends holding the first record of the next
group. -/
def wcInner (lastQ : Nat) (rest : List Rec) (record : Rec) (nr : Nat) (acc : List Rec) :
    Option (List Rec × Rec × List Rec × Nat) :=
  if record.qname = lastQ then
    match rest with
    | [] => none
    | r :: rest' => wcInner lastQ rest' r (nr + 1) (acc ++ [record])
  else some (acc, record, rest, nr)

/-- The outer loop of `FastForwardInfo::write_chunk`
(`while self.num_queries < self.stop_num_queries`).  The iteration budget is
`stop_num_queries - num_queries`, supplied by `writeChunk`; each iteration
increments `num_queries`, so the budget is exact and the `0`-with-guard-true
branch is unreachable. -/
def wcOuter (stopQ : Nat) (fuel : Nat) (rest : List Rec) (record : Rec) (nq nr : Nat)
    (acc : List Rec) : Option (List Rec × Rec × List Rec × Nat × Nat) :=
  if nq < stopQ then
    match fuel with
    | 0 => none
    | fuel + 1 =>
      match rest with
      | [] => none
      | r :: rest' =>
        match wcInner record.qname rest' r (nr + 1) (acc ++ [record]) with
        | none => none
        | some (acc', record', rest'', nr') =>
          wcOuter stopQ fuel rest'' record' (nq + 1) nr' acc'
  else some (acc, record, rest, nq, nr)

/-- The trailing loop of `FastForwardInfo::write_chunk`
(`while self.num_reads < self.hard_stop_num_reads`): finishes the final query
group without reading past the bin or the file. -/
def wcFinale (lastQ hardStop : Nat) (rest : List Rec) (nr : Nat) (acc : List Rec) :
    Option (List Rec) :=
  if nr < hardStop then
    match rest with
    | [] => none
    | r :: rest' =>
      if r.qname = lastQ then wcFinale lastQ hardStop rest' (nr + 1) (acc ++ [r])
      else some acc
  else some acc

/-- `FastForwardInfo::write_chunk`: the emitted records, or `none` on a
truncation error.  At the exit of the outer loop `last_query_name` always
equals the current record's query name, so it is not threaded separately. -/
def writeChunk (st : FFInfo) : Option (List Rec) :=
  match wcOuter st.stop_num_queries (st.stop_num_queries - st.num_queries)
      st.rest st.record st.num_queries st.num_reads [] with
  | none => none
  | some (acc, record, rest, _nq, nr) =>
    wcFinale record.qname st.hard_stop_num_reads rest nr (acc ++ [record])

/-- One chunk of the stream: `fast_forward` then `write_chunk`, an empty chunk
contributing nothing. -/
def chunkRecords (stream : List Rec) (idx : SplitIndex) (chunkIndex numChunks : Nat) :
    Option (List Rec) :=
  match fastForward stream idx chunkIndex numChunks with
  | none => none
  | some none => some []
  | some (some st) => writeChunk st

/-- Concatenation of the records emitted for chunks `0, …, numChunks - 1`. -/
def chunkConcat (stream : List Rec) (idx : SplitIndex) (numChunks : Nat) : List Rec :=
  (List.range numChunks).flatMap fun k => (chunkRecords stream idx k numChunks).getD []

/-- Decomposition of a stream into its maximal runs of equal query name
(query groups): the loop accumulating the current group. -/
def runsAux : List Rec → Nat → List Rec → List (List Rec)
  | [], _q, acc => [acc]
  | r :: rs, q, acc =>
    if r.qname = q then runsAux rs q (acc ++ [r])
    else acc :: runsAux rs r.qname [r]

/-- The query groups of a stream, in order. -/
def runs : List Rec → List (List Rec)
  | [] => []
  | r :: rs => runsAux rs r.qname [r]

/-- The number of query groups of a stream. -/
def numGroups (stream : List Rec) : Nat := (runs stream).length

/-- The position (record offset) of the first record of query group `g`;
equals `stream.length` when `g ≥ numGroups stream`. -/
def groupStart (stream : List Rec) (g : Nat) : Nat :=
  (((runs stream).take g).flatten).length

/-- The cumulative query count of the bin before bin `i` (`0` for the first
bin), as used by `index_to_bin_range`. -/
def prevNq (idx : SplitIndex) : Nat → Nat
  | 0 => 0
  | i + 1 => (idx.getD i default).num_queries

/-- Strict growth of both cumulative counters along the index, as a decidable
check. -/
def strictChain : SplitIndex → Bool
  | [] => true
  | [_] => true
  | a :: b :: rest =>
    a.num_queries < b.num_queries && a.num_reads < b.num_reads && strictChain (b :: rest)

/-- `RecordType` from `util.rs`. -/
inductive RecordType where
  | Fastq : RecordType
  | Bam : RecordType
deriving DecidableEq, Repr

/-- `char::to_ascii_lowercase`. -/
def asciiLowerChar (c : Char) : Char :=
  if 'A' ≤ c ∧ c ≤ 'Z' then Char.ofNat (c.toNat + 32) else c

/-- `str::to_ascii_lowercase`. -/
def asciiLower (s : String) : String := ⟨s.data.map asciiLowerChar⟩

/-- `RecordType::from_extension`. -/
def fromExtension (extension : Option String) : Option RecordType :=
  match extension with
  | none => none
  | some ext =>
    match asciiLower ext with
    | "fq" => some RecordType.Fastq
    | "fastq" => some RecordType.Fastq
    | "gz" => some RecordType.Fastq
    | "bgz" => some RecordType.Fastq
    | "bam" => some RecordType.Bam
    | "sam" => some RecordType.Bam
    | "cram" => some RecordType.Bam
    | _ => none

/-- `RecordType::from_path`, with the path represented by its
`Path::extension()` result. -/
def fromPath (pathExtension : Option String) : Option RecordType :=
  match pathExtension with
  | some ext => fromExtension (some ext)
  | none => none

/-- `GetChunk::get_output_record_type` from `commands/get_chunk.rs`, applied to
the extension of the *input* path (`self.input`), the `--output-format` flag
and the input record type — exactly as the source does.  Note the source never
consults the output path here. -/
def getOutputRecordType (inputExtension : Option String) (outputFormat : Option String)
    (inputRecordType : RecordType) : Option RecordType :=
  match fromPath inputExtension with
  | some rt => some rt
  | none =>
    match outputFormat with
    | some typeString => fromExtension (some typeString)
    | none => some inputRecordType

/-- An in-memory seekable byte stream (`Cursor`/`File` in the source): its
contents and current position.  Positions may point past the end, as for
`std::io` cursors. -/
structure ByteStream where
  data : List Nat
  pos : Nat
deriving DecidableEq, Repr

/-- `SeekFrom`. -/
inductive SeekFrom where
  | start : Nat → SeekFrom
  | current : Int → SeekFrom
  | fromEnd : Int → SeekFrom
deriving DecidableEq, Repr

/-- State of `seekable_chain::Chain`. -/
structure ChainState where
  front : ByteStream
  back : ByteStream
  pastFront : Bool
  initialFrontPos : Nat
  frontLen : Nat
  initialBackPos : Nat
deriving DecidableEq, Repr

/-- `Chain::new`.  `front.seek(End(0)) - initial_front_pos` is the remaining
length of the front stream (`Nat` subtraction, total where the source would
fail on a cursor past its end); the front position is restored afterwards, so
both underlying streams are returned unchanged. -/
def mkChain (front back : ByteStream) : ChainState :=
  { front := front
    back := back
    pastFront := decide (front.data.length - front.pos ≤ front.pos)
    initialFrontPos := front.pos
    frontLen := front.data.length - front.pos
    initialBackPos := back.pos }

/-- `Chain::stream_position`. -/
def chainStreamPosition (c : ChainState) : Nat :=
  if c.pastFront then c.frontLen + c.back.pos - c.initialBackPos
  else c.front.pos - c.initialFrontPos

/-- The `SeekFrom::Start` arm of `Chain::seek`. -/
def chainSeekStart (c : ChainState) (p : Nat) : Nat × ChainState :=
  if c.frontLen ≤ p then
    (p, { c with
            pastFront := true
            back := { c.back with pos := p - c.frontLen + c.initialBackPos } })
  else
    (p, { c with
            pastFront := false
            back := { c.back with pos := c.initialBackPos }
            front := { c.front with pos := p + c.initialFrontPos } })

/-- `Chain::seek`.  The intermediate mutation of the back position in the
negative `End` arm is overwritten by the recursive `Start` seek and is not
modelled separately. -/
def chainSeek (c : ChainState) : SeekFrom → Nat × ChainState
  | SeekFrom.start p => chainSeekStart c p
  | SeekFrom.current d =>
    if d = 0 then (chainStreamPosition c, c)
    else
      let base := chainStreamPosition c
      chainSeekStart c (if 0 < d then base + d.toNat else base - (-d).toNat)
  | SeekFrom.fromEnd e =>
    if 0 ≤ e then
      let res := c.back.data.length + e.toNat
      (c.frontLen + res - c.initialBackPos,
        { c with
            pastFront := true
            front := { c.front with pos := c.front.data.length }
            back := { c.back with pos := res } })
    else
      chainSeekStart c (c.frontLen + c.back.data.length - c.initialBackPos - (-e).toNat)

/-- `Chain::read` with a buffer of capacity `n`. -/
def chainRead (c : ChainState) (n : Nat) : List Nat × ChainState :=
  if c.pastFront then
    let bytes := (c.back.data.drop c.back.pos).take n
    (bytes, { c with back := { c.back with pos := c.back.pos + bytes.length } })
  else
    let bytes := (c.front.data.drop c.front.pos).take n
    if bytes.length = 0 ∧ n ≠ 0 then
      let bytes2 := (c.back.data.drop c.back.pos).take n
      (bytes2, { c with
                   pastFront := true
                   back := { c.back with pos := c.back.pos + bytes2.length } })
    else (bytes, { c with front := { c.front with pos := c.front.pos + bytes.length } })

/-- The logical length of a chain: remaining front bytes plus back bytes after
the initial back position. -/
def chainLength (c : ChainState) : Nat :=
  c.frontLen + c.back.data.length - c.initialBackPos

/-- `BufRead::read_until`: the bytes up to and including the first occurrence
of the delimiter (or all remaining bytes), and the rest of the stream. -/
def readUntil (delim : Nat) : List Nat → List Nat × List Nat
  | [] => ([], [])
  | b :: bs =>
    if b = delim then ([b], bs)
    else
      let rec_result := readUntil delim bs
      (b :: rec_result.1, rec_result.2)

/-- `Split::next` from `seekable_split.rs`, on the remaining in-memory bytes:
`none` when no bytes remain, otherwise the run with a trailing delimiter
removed, paired with the rest of the stream. -/
def splitNext (delim : Nat) (s : List Nat) : Option (List Nat) × List Nat :=
  let r := readUntil delim s
  if r.1.length = 0 then (none, r.2)
  else if r.1.getLastD 0 = delim then (some r.1.dropLast, r.2)
  else (some r.1, r.2)

/-- `FastqRecord` from `fastq.rs` (byte-list fields). -/
structure FastqRecord where
  name : List Nat
  sequence : List Nat
  separator : List Nat
  qualities : List Nat
deriving DecidableEq, Repr

/-- `FastqReader::next` (with `next_fastq_record` and `unwrap_next` inlined):
outer `none` means the iterator is exhausted, `some none` an incomplete or
failed record, `some (some r)` a parsed record; the second component is the
remaining stream. -/
def fastqNext (s : List Nat) : Option (Option FastqRecord) × List Nat :=
  match splitNext 10 s with
  | (none, rest) => (none, rest)
  | (some name, rest) =>
    match splitNext 10 rest with
    | (none, r1) => (some none, r1)
    | (some sequence, r1) =>
      match splitNext 10 r1 with
      | (none, r2) => (some none, r2)
      | (some separator, r2) =>
        match splitNext 10 r2 with
        | (none, r3) => (some none, r3)
        | (some qualities, r3) => (some (some ⟨name, sequence, separator, qualities⟩), r3)

instance : Inhabited Rec := ⟨⟨0, 0⟩⟩

/-- The query name of the last record of a nonempty stream prefix. -/
def lastQname (l : List Rec) : Nat := (l.getLastD default).qname

/-- The first record of the first of a list of runs. -/
def headRec (gs : List (List Rec)) : Rec := (gs.headD []).headD default

/-- The unread suffix when the first record of the first run has just been
read: the rest of that run followed by all later runs. -/
def tailRest (gs : List (List Rec)) : List Rec := (gs.headD []).tail ++ gs.tail.flatten

/-- Well-formedness of a run decomposition: every run is nonempty and
internally of one query name, and adjacent runs carry different names. -/
def RunsWF : List (List Rec) → Prop
  | [] => True
  | u :: us =>
    u ≠ [] ∧ (∀ x ∈ u, x.qname = (u.headD default).qname) ∧
    (match us with
     | [] => True
     | v :: _ => (v.headD default).qname ≠ (u.headD default).qname) ∧
    RunsWF us

/-- The facts about a split index that the chunk extractor relies on, all
relative to the source stream: the last bin carries the total group count,
every bin's cumulative counts stay within the stream, `num_reads` is the
stream position of the first record after the bin's last group, and `offset`
is the stream position of the first record of the bin. -/
structure ValidIndex (s : List Rec) (idx : SplitIndex) : Prop where
  lastNq : numQueries idx = numGroups s
  nqLe : ∀ i, i < idx.length → (idx.getD i default).num_queries ≤ numGroups s
  readsEq : ∀ i, i < idx.length →
    (idx.getD i default).num_reads = groupStart s (idx.getD i default).num_queries
  offsetEq : ∀ i, i < idx.length →
    (idx.getD i default).offset = groupStart s (prevNq idx i)

/-- The query name carried by the run accumulator after consuming a record
list, starting from name `q`. -/
def qAfter (q : Nat) : List Rec → Nat
  | [] => q
  | x :: xs => qAfter x.qname xs

/-- Append a record to the last run of a (nonempty) run list. -/
def extendLast (gss : List (List Rec)) (r : Rec) : List (List Rec) :=
  gss.dropLast ++ [gss.getLastD [] ++ [r]]

/-! ### Properties of the run (query-group) decomposition -/

theorem runsAux_flatten (l : List Rec) : ∀ q acc, (runsAux l q acc).flatten = acc ++ l := by
  induction l with
  | nil => intro q acc; simp [runsAux]
  | cons r rs ih =>
    intro q acc
    by_cases h : r.qname = q
    · simp [runsAux, h, ih]
    · simp [runsAux, h, ih]

theorem runs_flatten (s : List Rec) : (runs s).flatten = s := by
  cases s with
  | nil => rfl
  | cons r rs => simp [runs, runsAux_flatten]

theorem runsAux_ne_nil (l : List Rec) : ∀ q acc, runsAux l q acc ≠ [] := by
  induction l with
  | nil => intro q acc; simp [runsAux]
  | cons r rs ih =>
    intro q acc
    by_cases h : r.qname = q
    · simpa [runsAux, h] using ih q (acc ++ [r])
    · simp [runsAux, h]

theorem runsAux_headD (l : List Rec) : ∀ q acc, acc ≠ [] →
    ((runsAux l q acc).headD []).headD default = acc.headD default := by
  induction l with
  | nil => intro q acc _h; simp [runsAux]
  | cons r rs ih =>
    intro q acc hacc
    by_cases h : r.qname = q
    · rw [runsAux, if_pos h, ih q (acc ++ [r]) (by simp)]
      cases acc with
      | nil => exact absurd rfl hacc
      | cons a as => simp
    · simp [runsAux, h]

theorem runsAux_WF (l : List Rec) : ∀ q acc, acc ≠ [] → (∀ x ∈ acc, x.qname = q) →
    RunsWF (runsAux l q acc) := by
  induction l with
  | nil =>
    intro q acc hacc hall
    refine ⟨hacc, ?_, ?_, trivial⟩
    · intro x hx
      rw [hall x hx]
      cases acc with
      | nil => exact absurd rfl hacc
      | cons a as => simp [hall a (by simp)]
    · simp
  | cons r rs ih =>
    intro q acc hacc hall
    by_cases h : r.qname = q
    · rw [runsAux, if_pos h]
      exact ih q (acc ++ [r]) (by simp) (by
        intro x hx
        rcases List.mem_append.mp hx with hx | hx
        · exact hall x hx
        · simp at hx; rw [hx, h])
    · rw [runsAux, if_neg h]
      have hWF := ih r.qname [r] (by simp) (by simp)
      refine ⟨hacc, ?_, ?_, hWF⟩
      · intro x hx
        rw [hall x hx]
        cases acc with
        | nil => exact absurd rfl hacc
        | cons a as => simp [hall a (by simp)]
      · have hne := runsAux_ne_nil rs r.qname [r]
        cases hrw : runsAux rs r.qname [r] with
        | nil => exact absurd hrw hne
        | cons v vs =>
          show (v.headD default).qname ≠ (acc.headD default).qname
          have hv : (v.headD default).qname = r.qname := by
            have := runsAux_headD rs r.qname [r] (by simp)
            rw [hrw] at this
            simpa using congrArg Rec.qname this
          rw [hv]
          cases acc with
          | nil => exact absurd rfl hacc
          | cons a as =>
            have ha : a.qname = q := hall a (by simp)
            simpa [ha] using h

theorem runs_WF (s : List Rec) : RunsWF (runs s) := by
  cases s with
  | nil => exact trivial
  | cons r rs => exact runsAux_WF rs r.qname [r] (by simp) (by simp)

theorem runs_ne_nil_of_WF : ∀ gs : List (List Rec), RunsWF gs → ∀ t ∈ gs, t ≠ [] := by
  intro gs
  induction gs with
  | nil => intro _ t ht; cases ht
  | cons u us ih =>
    intro h t ht
    rcases List.mem_cons.mp ht with h0 | h0
    · rw [h0]; exact h.1
    · exact ih h.2.2.2 t h0

theorem RunsWF_drop : ∀ (gs : List (List Rec)) g, RunsWF gs → RunsWF (gs.drop g) := by
  intro gs
  induction gs with
  | nil => intro g _h; simp [RunsWF]
  | cons u us ih =>
    intro g h
    cases g with
    | zero => exact h
    | succ g => exact ih g h.2.2.2

theorem numGroups_eq_zero_iff (s : List Rec) : numGroups s = 0 ↔ s = [] := by
  cases s with
  | nil => simp [numGroups, runs]
  | cons r rs =>
    simp only [numGroups, runs]
    constructor
    · intro h
      exact absurd (List.length_eq_zero.mp h) (runsAux_ne_nil rs r.qname [r])
    · intro h; cases h

theorem groupStart_zero (s : List Rec) : groupStart s 0 = 0 := rfl

theorem groupStart_of_ge (s : List Rec) (g : Nat) (h : numGroups s ≤ g) :
    groupStart s g = s.length := by
  unfold groupStart
  rw [List.take_of_length_le h, runs_flatten]

theorem groupStart_total (s : List Rec) : groupStart s (numGroups s) = s.length :=
  groupStart_of_ge s _ le_rfl

theorem groupStart_succ (s : List Rec) (g : Nat) (h : g < numGroups s) :
    groupStart s (g + 1) = groupStart s g + ((runs s).getD g []).length := by
  have hg : g < (runs s).length := h
  have ht : (runs s).take (g + 1) = (runs s).take g ++ [(runs s).getD g []] := by
    rw [List.take_succ, List.getElem?_eq_getElem hg]
    simp [List.getD_eq_getElem?_getD, List.getElem?_eq_getElem hg]
  unfold groupStart
  rw [ht, List.flatten_append]
  simp

theorem groupStart_mono (s : List Rec) {a b : Nat} (h : a ≤ b) :
    groupStart s a ≤ groupStart s b := by
  unfold groupStart
  conv_rhs => rw [show b = a + (b - a) from (Nat.add_sub_cancel' h).symm, List.take_add]
  simp

theorem drop_groupStart (s : List Rec) (g : Nat) :
    s.drop (groupStart s g) = ((runs s).drop g).flatten := by
  have hs : ((runs s).take g).flatten ++ ((runs s).drop g).flatten = s := by
    rw [← List.flatten_append, List.take_append_drop, runs_flatten]
  calc s.drop (groupStart s g)
      = ((((runs s).take g).flatten ++ ((runs s).drop g).flatten).drop
          ((((runs s).take g).flatten).length)) := by rw [hs]; rfl
    _ = ((runs s).drop g).flatten := List.drop_left _ _

theorem headD_cons_tail {α : Type} (u : List α) (d : α) (h : u ≠ []) :
    u.headD d :: u.tail = u := by
  cases u with
  | nil => exact absurd rfl h
  | cons a as => rfl

theorem getD_mem_runs (s : List Rec) (g : Nat) (hg : g < (runs s).length) :
    (runs s).getD g [] ∈ runs s := by
  rw [List.getD_eq_getElem?_getD, List.getElem?_eq_getElem hg]
  exact List.getElem_mem hg

theorem groupStart_lt_succ (s : List Rec) (g : Nat) (h : g < numGroups s) :
    groupStart s g < groupStart s (g + 1) := by
  rw [groupStart_succ s g h]
  have hne : (runs s).getD g [] ≠ [] :=
    runs_ne_nil_of_WF (runs s) (runs_WF s) _ (getD_mem_runs s g h)
  have : 0 < ((runs s).getD g []).length := List.length_pos.mpr hne
  omega

/-! ### The chunk-writing loops -/

theorem wcInner_spec : ∀ (same : List Rec) (lastQ : Nat) (next : Rec) (tl : List Rec)
    (nr : Nat) (acc : List Rec), (∀ x ∈ same, x.qname = lastQ) → next.qname ≠ lastQ →
    wcInner lastQ ((same ++ next :: tl).tail) ((same ++ next :: tl).headD default) nr acc =
      some (acc ++ same, next, tl, nr + same.length) := by
  intro same
  induction same with
  | nil =>
    intro lastQ next tl nr acc _ hnext
    rw [List.nil_append, List.tail_cons, List.headD_cons, wcInner.eq_def, if_neg hnext]
    simp
  | cons x same' ih =>
    intro lastQ next tl nr acc hall hnext
    have hx : x.qname = lastQ := hall x (by simp)
    show wcInner lastQ (same' ++ next :: tl) x nr acc = _
    rw [wcInner.eq_def, if_pos hx]
    cases hsame : same' ++ next :: tl with
    | nil => simp at hsame
    | cons r rest' =>
      have hIH := ih lastQ next tl (nr + 1) (acc ++ [x])
        (fun y hy => hall y (by simp [hy])) hnext
      rw [hsame] at hIH
      simp only [List.headD_cons, List.tail_cons] at hIH
      simp only [hIH]
      simp
      omega

theorem wcFinale_stop : ∀ (tl : List Rec) (lastQ : Nat) (rest2 acc : List Rec) (nr : Nat),
    (∀ x ∈ tl, x.qname = lastQ) →
    wcFinale lastQ (nr + tl.length) (tl ++ rest2) nr acc = some (acc ++ tl) := by
  intro tl
  induction tl with
  | nil =>
    intro lastQ rest2 acc nr _
    rw [wcFinale.eq_def]
    simp
  | cons x tl' ih =>
    intro lastQ rest2 acc nr hall
    have hx : x.qname = lastQ := hall x (by simp)
    rw [wcFinale.eq_def]
    rw [if_pos (by simp only [List.length_cons]; omega)]
    simp only [List.cons_append, hx, if_pos rfl]
    have hIH := ih lastQ rest2 (acc ++ [x]) (nr + 1) (fun y hy => hall y (by simp [hy]))
    have harith : nr + (x :: tl').length = nr + 1 + tl'.length := by
      simp only [List.length_cons]; omega
    rw [harith, hIH]
    simp

theorem wcFinale_break : ∀ (tl : List Rec) (lastQ hardStop : Nat) (next : Rec)
    (rest3 acc : List Rec) (nr : Nat),
    (∀ x ∈ tl, x.qname = lastQ) → next.qname ≠ lastQ → nr + tl.length < hardStop →
    wcFinale lastQ hardStop (tl ++ next :: rest3) nr acc = some (acc ++ tl) := by
  intro tl
  induction tl with
  | nil =>
    intro lastQ hardStop next rest3 acc nr _ hnext hlt
    rw [wcFinale.eq_def, if_pos (by simpa using hlt)]
    simp only [List.nil_append]
    rw [if_neg hnext]
    simp
  | cons x tl' ih =>
    intro lastQ hardStop next rest3 acc nr hall hnext hlt
    have hx : x.qname = lastQ := hall x (by simp)
    rw [wcFinale.eq_def, if_pos (by simp only [List.length_cons] at hlt; omega)]
    simp only [List.cons_append, hx, if_pos rfl]
    have hIH := ih lastQ hardStop next rest3 (acc ++ [x]) (nr + 1)
      (fun y hy => hall y (by simp [hy])) hnext
      (by simp only [List.length_cons] at hlt; omega)
    rw [hIH]
    simp

theorem skipLoop_cons (startQ : Nat) (r : Rec) (rest' : List Rec) (nq nr : Nat)
    (record : Rec) (lastQ : Nat) (h : nq ≤ startQ) :
    skipLoop startQ (r :: rest') nq nr record lastQ =
      if r.qname = lastQ then skipLoop startQ rest' nq (nr + 1) r lastQ
      else skipLoop startQ rest' (nq + 1) (nr + 1) r r.qname := by
  rw [skipLoop.eq_def, if_pos h]

theorem wcOuter_step (stopQ fuel : Nat) (r : Rec) (rest' : List Rec) (record : Rec)
    (nq nr : Nat) (acc : List Rec) (h : nq < stopQ) :
    wcOuter stopQ (fuel + 1) (r :: rest') record nq nr acc =
      match wcInner record.qname rest' r (nr + 1) (acc ++ [record]) with
      | none => none
      | some (acc', record', rest'', nr') =>
        wcOuter stopQ fuel rest'' record' (nq + 1) nr' acc' := by
  rw [wcOuter.eq_def, if_pos h]

theorem wcOuter_step2 (stopQ fuel : Nat) (r : Rec) (rest' : List Rec) (record : Rec)
    (nq nr : Nat) (acc : List Rec) (h : nq < stopQ)
    (acc' : List Rec) (record' : Rec) (rest'' : List Rec) (nr' : Nat)
    (hinner : wcInner record.qname rest' r (nr + 1) (acc ++ [record]) =
      some (acc', record', rest'', nr')) :
    wcOuter stopQ (fuel + 1) (r :: rest') record nq nr acc =
      wcOuter stopQ fuel rest'' record' (nq + 1) nr' acc' := by
  rw [wcOuter.eq_def, if_pos h]
  simp only [hinner]

theorem wcOuter_stop (stopQ fuel : Nat) (rest : List Rec) (record : Rec)
    (nq nr : Nat) (acc : List Rec) (h : ¬ nq < stopQ) :
    wcOuter stopQ fuel rest record nq nr acc = some (acc, record, rest, nq, nr) := by
  rw [wcOuter.eq_def, if_neg h]

theorem skipLoop_run : ∀ (tl : List Rec) (startQ : Nat) (rest' : List Rec) (nq nr : Nat)
    (record : Rec) (lastQ : Nat), (∀ x ∈ tl, x.qname = lastQ) → nq ≤ startQ →
    skipLoop startQ (tl ++ rest') nq nr record lastQ =
      skipLoop startQ rest' nq (nr + tl.length) (tl.getLastD record) lastQ := by
  intro tl
  induction tl with
  | nil => intro startQ rest' nq nr record lastQ _ _; simp
  | cons x tl' ih =>
    intro startQ rest' nq nr record lastQ hall hle
    have hx : x.qname = lastQ := hall x (by simp)
    rw [List.cons_append, skipLoop.eq_def, if_pos hle]
    simp only [hx, if_pos rfl]
    rw [ih startQ rest' nq (nr + 1) x lastQ (fun y hy => hall y (by simp [hy])) hle]
    have h1 : nr + 1 + tl'.length = nr + (x :: tl').length := by
      simp only [List.length_cons]; omega
    have h2 : tl'.getLastD x = (x :: tl').getLastD record := by
      cases tl' <;> simp [List.getLastD]
    rw [h1, h2]
    simp

theorem skipLoop_spec : ∀ (n : Nat) (gs : List (List Rec)) (startQ g nr : Nat),
    RunsWF gs → g + n = startQ → n < gs.length →
    skipLoop startQ (tailRest gs) (g + 1) nr (headRec gs) ((headRec gs).qname) =
      some (headRec (gs.drop n), tailRest (gs.drop n), startQ + 1,
        nr + ((gs.take n).flatten).length) := by
  intro n
  induction n with
  | zero =>
    intro gs startQ g nr _hWF hg _hlen
    rw [skipLoop.eq_def, if_neg (by omega)]
    simp
    omega
  | succ n ih =>
    intro gs startQ g nr hWF hg hlen
    cases gs with
    | nil => simp at hlen
    | cons u us =>
      cases us with
      | nil => simp at hlen
      | cons v vs =>
        obtain ⟨hu, huq, hadj, hWFus⟩ := hWF
        have hv : v ≠ [] := hWFus.1
        have hlast : ∀ x ∈ u.tail, x.qname = (headRec (u :: v :: vs)).qname := by
          intro x hx
          exact huq x (List.mem_of_mem_tail hx)
        have hle : g + 1 ≤ startQ := by omega
        show skipLoop startQ (u.tail ++ (v :: vs).flatten) (g + 1) nr _ _ = _
        rw [skipLoop_run u.tail startQ _ (g + 1) nr _ _ hlast hle]
        have hvflat : (v :: vs).flatten = (v.headD default) :: (v.tail ++ vs.flatten) := by
          rw [List.flatten_cons, ← List.cons_append, headD_cons_tail v default hv]
        rw [hvflat, skipLoop_cons startQ _ _ _ _ _ _ hle]
        have hvq : (v.headD default).qname ≠ (headRec (u :: v :: vs)).qname := hadj
        rw [if_neg hvq]
        have hIH := ih (v :: vs) startQ (g + 1) (nr + u.tail.length + 1)
          hWFus (by omega) (by simpa using Nat.lt_of_succ_lt_succ hlen)
        have hheads : headRec (v :: vs) = v.headD default := rfl
        have htails : tailRest (v :: vs) = v.tail ++ vs.flatten := rfl
        rw [hheads, htails] at hIH
        rw [hIH]
        have hlen1 : (((u :: v :: vs).take (n + 1)).flatten).length =
            u.tail.length + 1 + (((v :: vs).take n).flatten).length := by
          have ht : (u :: v :: vs).take (n + 1) = u :: (v :: vs).take n := rfl
          rw [ht, List.flatten_cons, List.length_append]
          have : u.tail.length + 1 = u.length := by
            cases u with
            | nil => exact absurd rfl hu
            | cons a as => simp
          omega
        have : (u :: v :: vs).drop (n + 1) = (v :: vs).drop n := rfl
        rw [this, hlen1]
        have : nr + u.tail.length + 1 + (((v :: vs).take n).flatten).length =
            nr + (u.tail.length + 1 + (((v :: vs).take n).flatten).length) := by omega
        rw [this]

theorem wcOuter_spec : ∀ (n : Nat) (gs : List (List Rec)) (stopQ nq nr : Nat) (acc : List Rec),
    RunsWF gs → nq + n = stopQ → n < gs.length →
    wcOuter stopQ n (tailRest gs) (headRec gs) nq nr acc =
      some (acc ++ ((gs.take n).flatten), headRec (gs.drop n), tailRest (gs.drop n), stopQ,
        nr + ((gs.take n).flatten).length) := by
  intro n
  induction n with
  | zero =>
    intro gs stopQ nq nr acc _hWF hq _hlen
    rw [wcOuter_stop _ _ _ _ _ _ _ (by omega)]
    simp
    omega
  | succ n ih =>
    intro gs stopQ nq nr acc hWF hq hlen
    cases gs with
    | nil => simp at hlen
    | cons u us =>
      cases us with
      | nil => simp at hlen
      | cons v vs =>
        obtain ⟨hu, huq, hadj, hWFus⟩ := hWF
        have hv : v ≠ [] := hWFus.1
        have hlt : nq < stopQ := by omega
        have hrest : tailRest (u :: v :: vs) =
            u.tail ++ (v.headD default) :: (v.tail ++ vs.flatten) := by
          show u.tail ++ (v :: vs).flatten = _
          rw [List.flatten_cons, ← List.cons_append, headD_cons_tail v default hv]
        -- the unread suffix is nonempty, expose its head for the read
        cases hcase : u.tail ++ (v.headD default) :: (v.tail ++ vs.flatten) with
        | nil => simp at hcase
        | cons r rest' =>
          have hinner := wcInner_spec u.tail ((headRec (u :: v :: vs)).qname)
            (v.headD default) (v.tail ++ vs.flatten) (nr + 1) (acc ++ [headRec (u :: v :: vs)])
            (fun x hx => huq x (List.mem_of_mem_tail hx)) hadj
          rw [hcase] at hinner
          simp only [List.headD_cons, List.tail_cons] at hinner
          rw [hrest, hcase, wcOuter_step2 _ _ _ _ _ _ _ _ hlt _ _ _ _ hinner]
          have hIH := ih (v :: vs) stopQ (nq + 1) (nr + 1 + u.tail.length)
            (acc ++ [headRec (u :: v :: vs)] ++ u.tail) hWFus (by omega)
            (by simpa using Nat.lt_of_succ_lt_succ hlen)
          have hheads : headRec (v :: vs) = v.headD default := rfl
          have htails : tailRest (v :: vs) = v.tail ++ vs.flatten := rfl
          rw [hheads, htails] at hIH
          rw [hIH]
          have hufull : acc ++ [headRec (u :: v :: vs)] ++ u.tail = acc ++ u := by
            have : headRec (u :: v :: vs) = u.headD default := rfl
            rw [this, List.append_assoc, List.singleton_append, headD_cons_tail u default hu]
          have htake : ((u :: v :: vs).take (n + 1)).flatten = u ++ ((v :: vs).take n).flatten := by
            have ht : (u :: v :: vs).take (n + 1) = u :: (v :: vs).take n := rfl
            rw [ht, List.flatten_cons]
          have hdrop : (u :: v :: vs).drop (n + 1) = (v :: vs).drop n := rfl
          rw [hufull, htake, hdrop]
          have hulen : u.tail.length + 1 = u.length := by
            cases u with
            | nil => exact absurd rfl hu
            | cons a as => simp
          have harith : nr + 1 + u.tail.length + ((List.take n (v :: vs)).flatten).length =
              nr + (u ++ (List.take n (v :: vs)).flatten).length := by
            rw [List.length_append]
            omega
          rw [harith, List.append_assoc]

/-! ### Binary search and chunk-boundary arithmetic -/

theorem bisectGo_facts : ∀ (fuel : Nat) (a : SplitIndex) (t lo hi : Nat),
    hi - lo ≤ fuel → lo ≤ hi →
    (hi < a.length → t ≤ (a.getD hi default).num_queries) →
    lo ≤ bisectGo a t fuel lo hi ∧ bisectGo a t fuel lo hi ≤ hi ∧
    (lo < bisectGo a t fuel lo hi →
      (a.getD (bisectGo a t fuel lo hi - 1) default).num_queries < t) ∧
    (bisectGo a t fuel lo hi < a.length →
      t ≤ (a.getD (bisectGo a t fuel lo hi) default).num_queries) := by
  intro fuel
  induction fuel with
  | zero =>
    intro a t lo hi hfuel hle hinv
    have : hi = lo := by omega
    subst this
    rw [bisectGo]
    exact ⟨le_rfl, le_rfl, by omega, hinv⟩
  | succ fuel ih =>
    intro a t lo hi hfuel hle hinv
    rw [bisectGo]
    by_cases hlh : lo < hi
    · rw [if_pos hlh]
      by_cases hmid : (a.getD ((lo + hi) / 2) default).num_queries < t
      · rw [if_pos hmid]
        have hm1 : (lo + hi) / 2 < hi := by omega
        have hm2 : lo ≤ (lo + hi) / 2 := by omega
        obtain ⟨h1, h2, h3, h4⟩ := ih a t ((lo + hi) / 2 + 1) hi (by omega) (by omega) hinv
        refine ⟨by omega, h2, ?_, h4⟩
        intro hlt
        by_cases heq : (lo + hi) / 2 + 1 < bisectGo a t fuel ((lo + hi) / 2 + 1) hi
        · exact h3 heq
        · have : bisectGo a t fuel ((lo + hi) / 2 + 1) hi = (lo + hi) / 2 + 1 := by omega
          rw [this]
          simpa using hmid
      · rw [if_neg hmid]
        have hm1 : (lo + hi) / 2 < hi := by omega
        have hm2 : lo ≤ (lo + hi) / 2 := by omega
        obtain ⟨h1, h2, h3, h4⟩ := ih a t lo ((lo + hi) / 2) (by omega) (by omega)
          (fun _ => by omega)
        exact ⟨h1, by omega, h3, h4⟩
    · rw [if_neg hlh]
      have : hi = lo := by omega
      subst this
      exact ⟨le_rfl, le_rfl, by omega, hinv⟩

theorem bisectLeft_facts (a : SplitIndex) (t : Nat) :
    bisectLeft a t ≤ a.length ∧
    (0 < bisectLeft a t → (a.getD (bisectLeft a t - 1) default).num_queries < t) ∧
    (bisectLeft a t < a.length → t ≤ (a.getD (bisectLeft a t) default).num_queries) := by
  obtain ⟨h1, h2, h3, h4⟩ :=
    bisectGo_facts a.length a t 0 a.length (by omega) (by omega) (by omega)
  exact ⟨h2, h3, h4⟩

theorem numQueries_eq_getD (a : SplitIndex) (h : a ≠ []) :
    numQueries a = (a.getD (a.length - 1) default).num_queries := by
  have hlen : 0 < a.length := List.length_pos.mpr h
  unfold numQueries
  rw [List.getLast?_eq_getElem?, List.getD_eq_getElem?_getD,
    List.getElem?_eq_getElem (by omega : a.length - 1 < a.length)]
  simp

theorem numReads_eq_getD (a : SplitIndex) (h : a ≠ []) :
    numReads a = (a.getD (a.length - 1) default).num_reads := by
  have hlen : 0 < a.length := List.length_pos.mpr h
  unfold numReads
  rw [List.getLast?_eq_getElem?, List.getD_eq_getElem?_getD,
    List.getElem?_eq_getElem (by omega : a.length - 1 < a.length)]
  simp

theorem bisect_lt_length (a : SplitIndex) (t : Nat) (h : a ≠ [])
    (ht : t ≤ numQueries a) : bisectLeft a t < a.length := by
  obtain ⟨h1, h2, _⟩ := bisectLeft_facts a t
  have hlen : 0 < a.length := List.length_pos.mpr h
  rcases Nat.lt_or_ge (bisectLeft a t) a.length with hlt | hge
  · exact hlt
  · have heq : bisectLeft a t = a.length := by omega
    have := h2 (by omega)
    rw [heq, ← numQueries_eq_getD a h] at this
    omega

theorem divmod_floor (k T N : Nat) (hN : 1 ≤ N) :
    k * (T / N) + k * (T % N) / N = k * T / N := by
  conv_rhs => rw [← Nat.div_add_mod T N]
  rw [Nat.mul_add, Nat.mul_left_comm,
    Nat.add_comm (N * (k * (T / N))) (k * (T % N)),
    Nat.add_mul_div_left _ _ (by omega : 0 < N)]
  omega

theorem gcqs_eq_floor (idx : SplitIndex) (k N : Nat) (hk : k ≤ N) (hN : 1 ≤ N) :
    getChunkQueryStart idx k N = some (k * numQueries idx / N) := by
  rw [getChunkQueryStart, if_pos hk, divmod_floor _ _ _ hN]

theorem floor_mono (T N : Nat) {k k' : Nat} (h : k ≤ k') : k * T / N ≤ k' * T / N :=
  Nat.div_le_div_right (Nat.mul_le_mul_right T h)

theorem floor_le_total (k T N : Nat) (hk : k ≤ N) (hN : 1 ≤ N) : k * T / N ≤ T := by
  calc k * T / N ≤ N * T / N := floor_mono T N hk
    _ = T := by rw [Nat.mul_div_cancel_left T (by omega : 0 < N)]

theorem floor_total (T N : Nat) (hN : 1 ≤ N) : N * T / N = T :=
  Nat.mul_div_cancel_left T (by omega : 0 < N)

theorem drop_runs_cons (s : List Rec) (p : Nat) (hp : p < numGroups s) :
    (runs s).drop p = (runs s).getD p [] :: (runs s).drop (p + 1) := by
  rw [List.drop_eq_getElem_cons (show p < (runs s).length from hp)]
  rw [List.getD_eq_getElem?_getD, List.getElem?_eq_getElem (show p < (runs s).length from hp)]
  simp

theorem flatten_take_drop (s : List Rec) (p n : Nat) :
    ((((runs s).drop p).take n).flatten).length = groupStart s (p + n) - groupStart s p := by
  have h : (runs s).take (p + n) = (runs s).take p ++ ((runs s).drop p).take n :=
    List.take_add (runs s) p n
  have h2 : groupStart s (p + n) = groupStart s p + ((((runs s).drop p).take n).flatten).length := by
    unfold groupStart
    rw [h, List.flatten_append, List.length_append]
  omega

theorem drop_groupStart_cons (s : List Rec) (p : Nat) (hp : p < numGroups s) :
    s.drop (groupStart s p) =
      headRec ((runs s).drop p) :: tailRest ((runs s).drop p) := by
  have hne : (runs s).getD p [] ≠ [] :=
    runs_ne_nil_of_WF (runs s) (runs_WF s) _ (getD_mem_runs s p hp)
  rw [drop_groupStart s p, drop_runs_cons s p hp, List.flatten_cons]
  conv_lhs => rw [← headD_cons_tail ((runs s).getD p []) default hne, List.cons_append]
  rfl

theorem getD_some {α : Type} [Inhabited α] (l : List α) (i : Nat) (h : i < l.length) :
    l[i]? = some (l.getD i default) := by
  rw [List.getElem?_eq_getElem h, List.getD_eq_getElem?_getD, List.getElem?_eq_getElem h]
  rfl

theorem indexToBinRange_zero (idx : SplitIndex) (sr : SplitRecord) (h : idx[0]? = some sr) :
    indexToBinRange idx 0 = some ⟨sr.offset, 0, sr.num_queries, 0, sr.num_reads⟩ := by
  unfold indexToBinRange
  rw [h]
  rfl

theorem indexToBinRange_succ (idx : SplitIndex) (j : Nat) (sr prev : SplitRecord)
    (h : idx[j + 1]? = some sr) (h2 : idx[j]? = some prev) :
    indexToBinRange idx (j + 1) =
      some ⟨sr.offset, prev.num_queries, sr.num_queries, prev.num_reads, sr.num_reads⟩ := by
  unfold indexToBinRange
  rw [h, show j + 1 - 1 = j from rfl, h2]
  simp

theorem grfnq_spec (s : List Rec) (idx : SplitIndex) (hVI : ValidIndex s idx) (t : Nat)
    (ht : t ≤ numGroups s) (hne : idx ≠ []) :
    ∃ p e, p ≤ t ∧ (0 < t → p < t) ∧ t ≤ e ∧ e ≤ numGroups s ∧
      getRecordForNumQueries idx t =
        some ⟨groupStart s p, p, e, groupStart s p, groupStart s e⟩ := by
  have hi : bisectLeft idx t < idx.length :=
    bisect_lt_length idx t hne (by rw [hVI.lastNq]; exact ht)
  obtain ⟨_hle, hprev, hcur⟩ := bisectLeft_facts idx t
  have hcur' : t ≤ (idx.getD (bisectLeft idx t) default).num_queries := hcur hi
  refine ⟨prevNq idx (bisectLeft idx t), (idx.getD (bisectLeft idx t) default).num_queries,
    ?_, ?_, hcur', hVI.nqLe _ hi, ?_⟩
  · cases hb : bisectLeft idx t with
    | zero => simp [prevNq]
    | succ j =>
      have := hprev (by omega)
      rw [hb] at this
      simp only [Nat.add_sub_cancel] at this
      show (idx.getD j default).num_queries ≤ t
      omega
  · intro ht0
    cases hb : bisectLeft idx t with
    | zero => simpa [prevNq] using ht0
    | succ j =>
      have := hprev (by omega)
      rw [hb] at this
      simp only [Nat.add_sub_cancel] at this
      show (idx.getD j default).num_queries < t
      omega
  · unfold getRecordForNumQueries
    cases hb : bisectLeft idx t with
    | zero =>
      rw [hb] at hi
      rw [indexToBinRange_zero idx _ (getD_some idx 0 hi)]
      have hoff := hVI.offsetEq 0 hi
      have hrd := hVI.readsEq 0 hi
      simp only [prevNq] at hoff ⊢
      rw [hoff, hrd, groupStart_zero]
    | succ j =>
      rw [hb] at hi
      rw [indexToBinRange_succ idx j _ _ (getD_some idx (j + 1) hi) (getD_some idx j (by omega))]
      have hoff := hVI.offsetEq (j + 1) hi
      have hrdj := hVI.readsEq j (by omega)
      have hrd := hVI.readsEq (j + 1) hi
      simp only [prevNq] at hoff ⊢
      rw [hoff, hrdj, hrd]

theorem fastForward_eq (s : List Rec) (idx : SplitIndex) (k N startQ stopQ : Nat)
    (range stopRange : SplitRange) (r : Rec) (rest1 : List Rec)
    (h1 : getChunkQueryStart idx k N = some startQ)
    (h2 : getChunkQueryStart idx (k + 1) N = some stopQ)
    (h3 : ¬ stopQ ≤ startQ)
    (h4 : getRecordForNumQueries idx startQ = some range)
    (h5 : getRecordForNumQueries idx stopQ = some stopRange)
    (h6 : s.drop range.offset = r :: rest1) :
    fastForward s idx k N =
      if range.num_previous_queries < startQ then
        match skipLoop startQ rest1 (range.num_previous_queries + 1)
            (range.num_previous_reads + 1) r r.qname with
        | none => none
        | some (record, rest, nq, nr) =>
          some (some ⟨nq, stopQ, nr, stopRange.num_end_reads, record, rest⟩)
      else
        some (some ⟨startQ + 1, stopQ, range.num_previous_reads + 1,
          stopRange.num_end_reads, r, rest1⟩) := by
  unfold fastForward
  simp only [h1, h2]
  rw [if_neg h3]
  simp only [h4, h5, h6]

theorem fastForward_spec (s : List Rec) (idx : SplitIndex) (k N : Nat)
    (hVI : ValidIndex s idx) (startQ stopQ : Nat)
    (hstart : getChunkQueryStart idx k N = some startQ)
    (hstop : getChunkQueryStart idx (k + 1) N = some stopQ)
    (hlt : startQ < stopQ) (hstople : stopQ ≤ numGroups s) :
    ∃ e, stopQ ≤ e ∧ e ≤ numGroups s ∧
      fastForward s idx k N = some (some ⟨startQ + 1, stopQ, groupStart s startQ + 1,
        groupStart s e, headRec ((runs s).drop startQ), tailRest ((runs s).drop startQ)⟩) := by
  have hne : idx ≠ [] := by
    intro h
    have := hVI.lastNq
    rw [h] at this
    simp [numQueries] at this
    omega
  obtain ⟨p, e1, hp_le, hp_lt, ht_le_e1, he1G, hrange⟩ :=
    grfnq_spec s idx hVI startQ (by omega) hne
  obtain ⟨p2, e2, _, _, hstop_le_e2, he2G, hrange2⟩ :=
    grfnq_spec s idx hVI stopQ hstople hne
  refine ⟨e2, hstop_le_e2, he2G, ?_⟩
  have hpG : p < numGroups s := by omega
  have hdrop := drop_groupStart_cons s p hpG
  rw [fastForward_eq s idx k N startQ stopQ _ _ _ _ hstart hstop (by omega) hrange hrange2 hdrop]
  by_cases hcase : p < startQ
  · rw [if_pos hcase]
    have hskip := skipLoop_spec (startQ - p) ((runs s).drop p) startQ p (groupStart s p + 1)
      (RunsWF_drop (runs s) p (runs_WF s)) (by omega)
      (by
        rw [List.length_drop]
        have : (runs s).length = numGroups s := rfl
        omega)
    simp only [hskip]
    have hdd : ((runs s).drop p).drop (startQ - p) = (runs s).drop startQ := by
      rw [List.drop_drop]
      congr 1
      omega
    have hflat : ((((runs s).drop p).take (startQ - p)).flatten).length =
        groupStart s startQ - groupStart s p := by
      rw [flatten_take_drop]
      congr 2
      omega
    rw [hdd, hflat]
    have hmono : groupStart s p ≤ groupStart s startQ := groupStart_mono s (by omega)
    have : groupStart s p + 1 + (groupStart s startQ - groupStart s p) =
        groupStart s startQ + 1 := by omega
    rw [this]
  · rw [if_neg hcase]
    have hps : p = startQ := by omega
    rw [hps]

theorem length_runs_drop (s : List Rec) (a : Nat) :
    ((runs s).drop a).length = numGroups s - a := by
  rw [List.length_drop]
  rfl

theorem getD_drop (s : List Rec) (a b : Nat) (h : a + b < numGroups s) :
    ((runs s).drop a).getD b [] = (runs s).getD (a + b) [] := by
  have h1 : b < ((runs s).drop a).length := by rw [length_runs_drop]; omega
  have h2 : a + b < (runs s).length := h
  rw [List.getD_eq_getElem?_getD, List.getElem?_eq_getElem h1,
    List.getD_eq_getElem?_getD, List.getElem?_eq_getElem h2]
  simp [List.getElem_drop]

theorem take_succ_getD (gs : List (List Rec)) (n : Nat) (h : n < gs.length) :
    gs.take (n + 1) = gs.take n ++ [gs.getD n []] := by
  rw [List.take_succ, List.getElem?_eq_getElem h]
  rw [List.getD_eq_getElem?_getD, List.getElem?_eq_getElem h]
  simp

theorem writeChunk_spec (s : List Rec) (startQ stopQ e : Nat)
    (h1 : startQ < stopQ) (h2 : stopQ ≤ e) (h3 : e ≤ numGroups s) :
    writeChunk ⟨startQ + 1, stopQ, groupStart s startQ + 1, groupStart s e,
      headRec ((runs s).drop startQ), tailRest ((runs s).drop startQ)⟩ =
      some ((((runs s).drop startQ).take (stopQ - startQ)).flatten) := by
  have hsG : startQ < numGroups s := by omega
  have hs1G : stopQ - 1 < numGroups s := by omega
  have hout := wcOuter_spec (stopQ - (startQ + 1)) ((runs s).drop startQ) stopQ (startQ + 1)
    (groupStart s startQ + 1) [] (RunsWF_drop _ _ (runs_WF s)) (by omega)
    (by rw [length_runs_drop]; omega)
  unfold writeChunk
  dsimp only
  rw [hout]
  dsimp only
  -- identify the final group
  have hdd : ((runs s).drop startQ).drop (stopQ - (startQ + 1)) = (runs s).drop (stopQ - 1) := by
    rw [List.drop_drop]
    congr 1
    omega
  have hflat : ((((runs s).drop startQ).take (stopQ - (startQ + 1))).flatten).length =
      groupStart s (stopQ - 1) - groupStart s startQ := by
    rw [flatten_take_drop]
    congr 2
    omega
  have hmono : groupStart s startQ ≤ groupStart s (stopQ - 1) := groupStart_mono s (by omega)
  have hw : (runs s).drop (stopQ - 1) = (runs s).getD (stopQ - 1) [] :: (runs s).drop stopQ := by
    rw [drop_runs_cons s (stopQ - 1) hs1G, show stopQ - 1 + 1 = stopQ by omega]
  have hWFw : RunsWF ((runs s).getD (stopQ - 1) [] :: (runs s).drop stopQ) := by
    rw [← hw]
    exact RunsWF_drop _ _ (runs_WF s)
  have hwne : (runs s).getD (stopQ - 1) [] ≠ [] := hWFw.1
  have hwq : ∀ x ∈ ((runs s).getD (stopQ - 1) []).tail,
      x.qname = (((runs s).getD (stopQ - 1) []).headD default).qname :=
    fun x hx => hWFw.2.1 x (List.mem_of_mem_tail hx)
  have hhead : headRec ((runs s).drop (stopQ - 1)) =
      ((runs s).getD (stopQ - 1) []).headD default := by rw [hw]; rfl
  have htail : tailRest ((runs s).drop (stopQ - 1)) =
      ((runs s).getD (stopQ - 1) []).tail ++ ((runs s).drop stopQ).flatten := by rw [hw]; rfl
  have hwlen : ((runs s).getD (stopQ - 1) []).tail.length + 1 =
      ((runs s).getD (stopQ - 1) []).length := by
    cases hcw : (runs s).getD (stopQ - 1) [] with
    | nil => exact absurd hcw hwne
    | cons a as => simp
  have hnr : groupStart s startQ + 1 + (groupStart s (stopQ - 1) - groupStart s startQ) +
      ((runs s).getD (stopQ - 1) []).tail.length = groupStart s stopQ := by
    have hsucc := groupStart_succ s (stopQ - 1) hs1G
    rw [show stopQ - 1 + 1 = stopQ by omega] at hsucc
    omega
  have hacc : ([] ++ (((runs s).drop startQ).take (stopQ - (startQ + 1))).flatten ++
        [((runs s).getD (stopQ - 1) []).headD default]) ++
        ((runs s).getD (stopQ - 1) []).tail =
      (((runs s).drop startQ).take (stopQ - startQ)).flatten := by
    rw [List.nil_append, List.append_assoc, List.singleton_append,
      headD_cons_tail _ default hwne]
    have htk : ((runs s).drop startQ).take (stopQ - startQ) =
        ((runs s).drop startQ).take (stopQ - (startQ + 1)) ++ [(runs s).getD (stopQ - 1) []] := by
      have hlt : stopQ - (startQ + 1) < ((runs s).drop startQ).length := by
        rw [length_runs_drop]; omega
      rw [show stopQ - startQ = (stopQ - (startQ + 1)) + 1 by omega,
        take_succ_getD _ _ hlt, getD_drop s startQ (stopQ - (startQ + 1)) (by omega)]
      congr 3
      omega
    rw [htk, List.flatten_append]
    simp
  rw [hdd, hflat, hhead, htail]
  rcases Nat.lt_or_ge stopQ e with hcase | hcase
  · -- the bin holding the stop count extends past it: the finale breaks on a new name
    have hstopG : stopQ < numGroups s := by omega
    have hnext : (runs s).drop stopQ = (runs s).getD stopQ [] :: (runs s).drop (stopQ + 1) :=
      drop_runs_cons s stopQ hstopG
    have hnne : (runs s).getD stopQ [] ≠ [] :=
      runs_ne_nil_of_WF (runs s) (runs_WF s) _ (getD_mem_runs s stopQ hstopG)
    have hfn : ((runs s).drop stopQ).flatten =
        ((runs s).getD stopQ []).headD default ::
          (((runs s).getD stopQ []).tail ++ ((runs s).drop (stopQ + 1)).flatten) := by
      rw [hnext, List.flatten_cons, ← List.cons_append, headD_cons_tail _ default hnne]
    have hadj : (((runs s).getD stopQ []).headD default).qname ≠
        (((runs s).getD (stopQ - 1) []).headD default).qname := by
      have hh := hWFw.2.2.1
      rw [hnext] at hh
      exact hh
    have hlt2 : groupStart s startQ + 1 + (groupStart s (stopQ - 1) - groupStart s startQ) +
        ((runs s).getD (stopQ - 1) []).tail.length < groupStart s e := by
      have hstrict := groupStart_lt_succ s stopQ hstopG
      have hmono2 := groupStart_mono s (show stopQ + 1 ≤ e by omega)
      omega
    rw [hfn]
    rw [wcFinale_break ((runs s).getD (stopQ - 1) []).tail
      ((((runs s).getD (stopQ - 1) []).headD default).qname) (groupStart s e)
      (((runs s).getD stopQ []).headD default)
      (((runs s).getD stopQ []).tail ++ ((runs s).drop (stopQ + 1)).flatten)
      _ _ hwq hadj hlt2]
    rw [hacc]
  · -- the bin ends exactly at the stop count; the read guard stops the finale
    have he : e = stopQ := by omega
    rw [he]
    have := wcFinale_stop ((runs s).getD (stopQ - 1) []).tail
      ((((runs s).getD (stopQ - 1) []).headD default).qname)
      (((runs s).drop stopQ).flatten)
      ([] ++ (((runs s).drop startQ).take (stopQ - (startQ + 1))).flatten ++
        [((runs s).getD (stopQ - 1) []).headD default])
      (groupStart s startQ + 1 + (groupStart s (stopQ - 1) - groupStart s startQ)) hwq
    rw [show groupStart s startQ + 1 + (groupStart s (stopQ - 1) - groupStart s startQ) +
        ((runs s).getD (stopQ - 1) []).tail.length = groupStart s stopQ from hnr] at this
    rw [this, hacc]

theorem chunk_spec (s : List Rec) (idx : SplitIndex) (k N : Nat) (hVI : ValidIndex s idx)
    (hN : 1 ≤ N) (hk : k < N) :
    chunkRecords s idx k N = some ((((runs s).drop (k * numQueries idx / N)).take
      ((k + 1) * numQueries idx / N - k * numQueries idx / N)).flatten) := by
  have hstart := gcqs_eq_floor idx k N (by omega) hN
  have hstop := gcqs_eq_floor idx (k + 1) N (by omega) hN
  rcases Nat.lt_or_ge (k * numQueries idx / N) ((k + 1) * numQueries idx / N) with hlt | hge
  · have hstople : (k + 1) * numQueries idx / N ≤ numGroups s := by
      rw [← hVI.lastNq]
      exact floor_le_total (k + 1) _ N (by omega) hN
    obtain ⟨e, he1, he2, hff⟩ := fastForward_spec s idx k N hVI _ _ hstart hstop hlt hstople
    unfold chunkRecords
    rw [hff]
    exact writeChunk_spec s _ _ e hlt he1 he2
  · have hff : fastForward s idx k N = some none := by
      unfold fastForward
      simp only [hstart, hstop]
      rw [if_pos hge]
    unfold chunkRecords
    rw [hff]
    rw [show (k + 1) * numQueries idx / N - k * numQueries idx / N = 0 by omega]
    simp

theorem slice_assembly (rs : List (List Rec)) (f : Nat → Nat) :
    ∀ N : Nat, f 0 = 0 → (∀ k, k < N → f k ≤ f (k + 1)) →
    (List.range N).flatMap (fun k => ((rs.drop (f k)).take (f (k + 1) - f k)).flatten) =
      (rs.take (f N)).flatten := by
  intro N
  induction N with
  | zero => intro h0 _; simp [h0]
  | succ N ih =>
    intro h0 hmono
    rw [List.range_succ, List.flatMap_append, ih h0 (fun k hk => hmono k (by omega))]
    have hm : f N ≤ f (N + 1) := hmono N (by omega)
    rw [show f (N + 1) = f N + (f (N + 1) - f N) by omega, List.take_add, List.flatten_append]
    simp

theorem flatMap_congr_range {α : Type} (N : Nat) (f g : Nat → List α)
    (h : ∀ k, k < N → f k = g k) :
    (List.range N).flatMap f = (List.range N).flatMap g := by
  unfold List.flatMap
  congr 1
  apply List.map_congr_left
  intro k hk
  exact h k (List.mem_range.mp hk)

/-- The central correctness argument: for any index that is valid for the
stream, the chunks partition the stream exactly. -/
theorem chunkConcat_eq_of_valid (s : List Rec) (idx : SplitIndex) (N : Nat)
    (hVI : ValidIndex s idx) (hN : 1 ≤ N) : chunkConcat s idx N = s := by
  unfold chunkConcat
  have hc := flatMap_congr_range N
    (fun k => (chunkRecords s idx k N).getD [])
    (fun k => (((runs s).drop (k * numQueries idx / N)).take
      ((k + 1) * numQueries idx / N - k * numQueries idx / N)).flatten)
    (fun k hk => by
      show (chunkRecords s idx k N).getD [] = _
      rw [chunk_spec s idx k N hVI hN hk]
      rfl)
  rw [hc, slice_assembly (runs s) (fun k => k * numQueries idx / N) N (by simp)
    (fun k _ => floor_mono _ N (by omega))]
  rw [floor_total _ N hN, hVI.lastNq]
  rw [List.take_of_length_le (show (runs s).length ≤ numGroups s from le_rfl), runs_flatten]

/-! ### How appending one record changes the run decomposition -/

theorem runs_ne_nil (l : List Rec) (h : l ≠ []) : runs l ≠ [] := by
  cases l with
  | nil => exact absurd rfl h
  | cons x xs => exact runsAux_ne_nil xs x.qname [x]

theorem numGroups_pos (l : List Rec) (h : l ≠ []) : 1 ≤ numGroups l := by
  have := runs_ne_nil l h
  have := List.length_pos.mpr this
  exact this

theorem qAfter_cons_lastQname : ∀ (xs : List Rec) (x : Rec),
    qAfter x.qname xs = lastQname (x :: xs) := by
  intro xs
  induction xs with
  | nil => intro x; rfl
  | cons y ys ih =>
    intro x
    show qAfter y.qname ys = lastQname (x :: y :: ys)
    rw [ih y]
    rfl

theorem lastQname_concat (l : List Rec) (r : Rec) : lastQname (l ++ [r]) = r.qname := by
  unfold lastQname
  rw [List.getLastD_concat]

theorem extendLast_cons (a : List Rec) (gss : List (List Rec)) (r : Rec) (h : gss ≠ []) :
    extendLast (a :: gss) r = a :: extendLast gss r := by
  unfold extendLast
  rw [List.dropLast_cons_of_ne_nil h, List.cons_append]
  congr 2
  cases gss with
  | nil => exact absurd rfl h
  | cons b bs => rfl

theorem runsAux_append_one : ∀ (l : List Rec) (r : Rec) (q : Nat) (acc : List Rec),
    runsAux (l ++ [r]) q acc =
      if r.qname = qAfter q l then extendLast (runsAux l q acc) r
      else runsAux l q acc ++ [[r]] := by
  intro l
  induction l with
  | nil =>
    intro r q acc
    by_cases h : r.qname = q
    · simp [runsAux, qAfter, h, extendLast]
    · simp [runsAux, qAfter, h, extendLast]
  | cons x xs ih =>
    intro r q acc
    show runsAux ((x :: xs) ++ [r]) q acc = _
    rw [List.cons_append, runsAux]
    by_cases hx : x.qname = q
    · rw [if_pos hx, ih r q (acc ++ [x])]
      have hq : qAfter q (x :: xs) = qAfter q xs := by
        show qAfter x.qname xs = qAfter q xs
        rw [hx]
      rw [hq]
      by_cases hr : r.qname = qAfter q xs
      · rw [if_pos hr, if_pos hr]
        congr 1
        rw [runsAux, if_pos hx]
      · rw [if_neg hr, if_neg hr]
        congr 1
        rw [runsAux, if_pos hx]
    · rw [if_neg hx, ih r x.qname [x]]
      have hq : qAfter q (x :: xs) = qAfter x.qname xs := rfl
      rw [hq]
      by_cases hr : r.qname = qAfter x.qname xs
      · rw [if_pos hr, if_pos hr]
        rw [runsAux, if_neg hx]
        rw [extendLast_cons acc _ r (runsAux_ne_nil xs x.qname [x])]
      · rw [if_neg hr, if_neg hr]
        rw [runsAux, if_neg hx]
        rfl

theorem runs_append_one (l : List Rec) (r : Rec) (h : l ≠ []) :
    runs (l ++ [r]) =
      if r.qname = lastQname l then extendLast (runs l) r else runs l ++ [[r]] := by
  cases l with
  | nil => exact absurd rfl h
  | cons x xs =>
    show runsAux (xs ++ [r]) x.qname [x] = _
    rw [runsAux_append_one xs r x.qname [x], qAfter_cons_lastQname xs x]
    rfl

theorem numGroups_append_same (l : List Rec) (r : Rec) (hl : l ≠ [])
    (hr : r.qname = lastQname l) : numGroups (l ++ [r]) = numGroups l := by
  unfold numGroups
  rw [runs_append_one l r hl, if_pos hr]
  unfold extendLast
  rw [List.length_append, List.length_dropLast]
  have := List.length_pos.mpr (runs_ne_nil l hl)
  simp
  omega

theorem numGroups_append_diff (l : List Rec) (r : Rec) (hl : l ≠ [])
    (hr : r.qname ≠ lastQname l) : numGroups (l ++ [r]) = numGroups l + 1 := by
  unfold numGroups
  rw [runs_append_one l r hl, if_neg hr, List.length_append]
  rfl

theorem groupStart_append_same (l : List Rec) (r : Rec) (hl : l ≠ [])
    (hr : r.qname = lastQname l) (g : Nat) (hg : g < numGroups l) :
    groupStart (l ++ [r]) g = groupStart l g := by
  unfold groupStart
  rw [runs_append_one l r hl, if_pos hr]
  unfold extendLast
  congr 1
  have hlen : numGroups l = (runs l).length := rfl
  rw [List.take_append_of_le_length (by rw [List.length_dropLast]; omega)]
  rw [List.dropLast_eq_take, List.take_take, Nat.min_eq_left (by omega)]

theorem groupStart_append_diff (l : List Rec) (r : Rec) (hl : l ≠ [])
    (hr : r.qname ≠ lastQname l) (g : Nat) (hg : g ≤ numGroups l) :
    groupStart (l ++ [r]) g = groupStart l g := by
  unfold groupStart
  rw [runs_append_one l r hl, if_neg hr]
  congr 1
  rw [List.take_append_of_le_length hg]

/-! ### Strict growth of the cumulative counters -/

theorem strictChain_iff : ∀ l : SplitIndex, strictChain l = true ↔
    List.Chain' (fun a b => a.num_queries < b.num_queries ∧ a.num_reads < b.num_reads) l := by
  intro l
  induction l with
  | nil => simp [strictChain]
  | cons a l ih =>
    cases l with
    | nil => simp [strictChain]
    | cons b rest =>
      rw [strictChain, List.chain'_cons]
      simp only [Bool.and_eq_true, decide_eq_true_eq]
      rw [ih]

theorem numQueries_concat (acc : SplitIndex) (x : SplitRecord) :
    numQueries (acc ++ [x]) = x.num_queries := by
  unfold numQueries
  rw [List.getLast?_concat]

theorem numReads_concat (acc : SplitIndex) (x : SplitRecord) :
    numReads (acc ++ [x]) = x.num_reads := by
  unfold numReads
  rw [List.getLast?_concat]

theorem getLast?_numQueries (acc : SplitIndex) (z : SplitRecord) (h : acc.getLast? = some z) :
    z.num_queries = numQueries acc ∧ z.num_reads = numReads acc := by
  unfold numQueries numReads
  rw [h]
  exact ⟨rfl, rfl⟩

theorem strictChain_snoc (acc : SplitIndex) (x : SplitRecord)
    (h : strictChain acc = true)
    (h2 : acc = [] ∨ (numQueries acc < x.num_queries ∧ numReads acc < x.num_reads)) :
    strictChain (acc ++ [x]) = true := by
  rw [strictChain_iff] at h ⊢
  rw [List.chain'_append]
  refine ⟨h, List.chain'_singleton x, ?_⟩
  intro z hz y hy
  simp at hy
  subst hy
  rcases h2 with h2 | h2
  · subst h2; simp at hz
  · obtain ⟨hq, hr⟩ := getLast?_numQueries acc z hz
    omega

theorem strictChain_update_last (idx : SplitIndex) (cur c2 : SplitRecord)
    (h : strictChain (idx ++ [cur]) = true)
    (hq : cur.num_queries ≤ c2.num_queries) (hr : cur.num_reads ≤ c2.num_reads) :
    strictChain (idx ++ [c2]) = true := by
  rw [strictChain_iff] at h ⊢
  rw [List.chain'_append] at h ⊢
  obtain ⟨h1, _, h3⟩ := h
  refine ⟨h1, List.chain'_singleton c2, ?_⟩
  intro z hz y hy
  simp at hy
  subst hy
  have := h3 z hz cur (by simp)
  omega

theorem strict_pairwise (a : SplitIndex) (h : strictChain a = true) :
    ∀ i j, i < j → j < a.length →
      (a.getD i default).num_queries < (a.getD j default).num_queries ∧
      (a.getD i default).num_reads < (a.getD j default).num_reads := by
  rw [strictChain_iff] at h
  letI : IsTrans SplitRecord (fun a b : SplitRecord =>
      a.num_queries < b.num_queries ∧ a.num_reads < b.num_reads) :=
    ⟨fun x y z hxy hyz => by omega⟩
  rw [List.chain'_iff_pairwise] at h
  intro i j hij hj
  have hi : i < a.length := by omega
  have := (List.pairwise_iff_getElem.mp h) i j hi hj hij
  rw [List.getD_eq_getElem?_getD, List.getElem?_eq_getElem hi,
    List.getD_eq_getElem?_getD, List.getElem?_eq_getElem hj]
  exact this

/-! ### The builder produces a valid index -/

theorem getD_append_lt (l l' : SplitIndex) (i : Nat) (h : i < l.length) :
    (l ++ l').getD i default = l.getD i default := by
  rw [List.getD_eq_getElem?_getD, List.getElem?_append_left h,
    ← List.getD_eq_getElem?_getD]

theorem getD_concat_self (l : SplitIndex) (x : SplitRecord) :
    (l ++ [x]).getD l.length default = x := by
  rw [List.getD_eq_getElem?_getD, List.getElem?_append_right (le_refl l.length)]
  simp

theorem prevNq_succ (l : SplitIndex) (j : Nat) :
    prevNq l (j + 1) = (l.getD j default).num_queries := rfl

theorem prevNq_concat (idx : SplitIndex) (cur : SplitRecord) :
    prevNq (idx ++ [cur]) idx.length = numQueries idx := by
  cases hidx : idx with
  | nil => simp [prevNq, numQueries]
  | cons a as =>
    show prevNq ((a :: as) ++ [cur]) (as.length + 1) = _
    rw [prevNq_succ, getD_append_lt _ _ _ (by simp), numQueries_eq_getD (a :: as) (by simp)]
    simp

theorem prevNq_append_lt (idx : SplitIndex) (l' : SplitIndex) (i : Nat) (h : i ≤ idx.length)
    (h0 : 0 < i) : prevNq (idx ++ l') i = prevNq idx i := by
  cases i with
  | zero => rfl
  | succ j =>
    rw [prevNq_succ, prevNq_succ, getD_append_lt _ _ _ (by omega)]

theorem buildLoop_valid : ∀ (rs : List Rec) (bins : Nat) (pre : List Rec) (idx : SplitIndex)
    (nextBin : Nat) (cur : SplitRecord) (lastQ : Nat),
    pre ≠ [] →
    lastQ = lastQname pre →
    cur.num_reads = pre.length →
    cur.num_queries = numGroups pre →
    cur.offset = groupStart pre (numQueries idx) →
    numQueries idx < numGroups pre →
    (∀ i, i < idx.length → (idx.getD i default).num_queries < numGroups pre ∧
      (idx.getD i default).num_reads = groupStart pre ((idx.getD i default).num_queries) ∧
      (idx.getD i default).offset = groupStart pre (prevNq idx i)) →
    strictChain (idx ++ [cur]) = true →
    ValidIndex (pre ++ rs) (buildLoop bins rs pre.length idx nextBin cur lastQ) ∧
    strictChain (buildLoop bins rs pre.length idx nextBin cur lastQ) = true := by
  intro rs
  induction rs with
  | nil =>
    intro bins pre idx nextBin cur lastQ hpre hlast hnr hnq hoff hlt hent hchain
    rw [buildLoop, List.append_nil]
    refine ⟨⟨?_, ?_, ?_, ?_⟩, hchain⟩
    · rw [numQueries_concat, hnq]
    · intro i hi
      rw [List.length_append, List.length_singleton] at hi
      rcases Nat.lt_or_ge i idx.length with hcase | hcase
      · rw [getD_append_lt _ _ _ hcase]
        exact le_of_lt (hent i hcase).1
      · have : i = idx.length := by omega
        subst this
        rw [getD_concat_self, hnq]
    · intro i hi
      rw [List.length_append, List.length_singleton] at hi
      rcases Nat.lt_or_ge i idx.length with hcase | hcase
      · rw [getD_append_lt _ _ _ hcase]
        exact (hent i hcase).2.1
      · have : i = idx.length := by omega
        subst this
        rw [getD_concat_self, hnr, hnq, groupStart_total]
    · intro i hi
      rw [List.length_append, List.length_singleton] at hi
      rcases Nat.lt_or_ge i idx.length with hcase | hcase
      · rw [getD_append_lt _ _ _ hcase]
        rcases Nat.eq_zero_or_pos i with h0 | h0
        · subst h0
          rw [show prevNq (idx ++ [cur]) 0 = 0 from rfl]
          exact (hent 0 hcase).2.2
        · rw [prevNq_append_lt idx [cur] i (by omega) h0]
          exact (hent i hcase).2.2
      · have : i = idx.length := by omega
        subst this
        rw [getD_concat_self, prevNq_concat, hoff]
  | cons r rs ih =>
    intro bins pre idx nextBin cur lastQ hpre hlast hnr hnq hoff hlt hent hchain
    have hG1 : 1 ≤ numGroups pre := numGroups_pos pre hpre
    have hpre' : pre ++ [r] ≠ [] := by simp
    have hlen' : pre.length + 1 = (pre ++ [r]).length := by simp
    have happ : pre ++ r :: rs = (pre ++ [r]) ++ rs := by simp
    rw [buildLoop]
    by_cases hq : r.qname = lastQ
    · rw [if_pos hq]
      rw [hlen', happ]
      have hrlast : r.qname = lastQname pre := by rw [hq, hlast]
      have hNG := numGroups_append_same pre r hpre hrlast
      refine ih bins (pre ++ [r]) idx nextBin _ lastQ hpre' ?_ ?_ ?_ ?_ ?_ ?_ ?_
      · rw [lastQname_concat, hq]
      · show cur.num_reads + 1 = _
        rw [List.length_append, List.length_singleton, hnr]
      · show cur.num_queries = _
        rw [hnq, hNG]
      · show cur.offset = _
        rw [hoff, groupStart_append_same pre r hpre hrlast _ hlt]
      · rw [hNG]
        exact hlt
      · intro i hi
        obtain ⟨e1, e2, e3⟩ := hent i hi
        refine ⟨by rw [hNG]; exact e1, ?_, ?_⟩
        · rw [e2, groupStart_append_same pre r hpre hrlast _ e1]
        · rw [e3]
          rcases Nat.eq_zero_or_pos i with h0 | h0
          · subst h0
            rfl
          · rw [groupStart_append_same pre r hpre hrlast _ ?_]
            cases i with
            | zero => omega
            | succ j =>
              show (idx.getD j default).num_queries < numGroups pre
              exact (hent j (by omega)).1
      · exact strictChain_update_last idx cur _ hchain (le_refl _)
          (by show cur.num_reads ≤ cur.num_reads + 1; omega)
    · rw [if_neg hq]
      have hrlast : r.qname ≠ lastQname pre := by rw [← hlast]; exact hq
      have hNG := numGroups_append_diff pre r hpre hrlast
      by_cases hbin : cur.num_queries < nextBin
      · rw [if_pos hbin]
        rw [hlen', happ]
        refine ih bins (pre ++ [r]) idx nextBin _ r.qname hpre' ?_ ?_ ?_ ?_ ?_ ?_ ?_
        · rw [lastQname_concat]
        · show cur.num_reads + 1 = _
          rw [List.length_append, List.length_singleton, hnr]
        · show cur.num_queries + 1 = _
          rw [hnq, hNG]
        · show cur.offset = _
          rw [hoff, groupStart_append_diff pre r hpre hrlast _ (by omega)]
        · rw [hNG]
          omega
        · intro i hi
          obtain ⟨e1, e2, e3⟩ := hent i hi
          refine ⟨by omega, ?_, ?_⟩
          · rw [e2, groupStart_append_diff pre r hpre hrlast _ (by omega)]
          · rw [e3]
            rcases Nat.eq_zero_or_pos i with h0 | h0
            · subst h0
              rfl
            · rw [groupStart_append_diff pre r hpre hrlast _ ?_]
              cases i with
              | zero => omega
              | succ j =>
                show (idx.getD j default).num_queries ≤ numGroups pre
                exact le_of_lt (hent j (by omega)).1
        · exact strictChain_update_last idx cur _ hchain
            (by show cur.num_queries ≤ cur.num_queries + 1; omega)
            (by show cur.num_reads ≤ cur.num_reads + 1; omega)
      · rw [if_neg hbin]
        rw [hlen', happ]
        have hsnr : startNextRecord (idx ++ [cur]) pre.length =
            ⟨pre.length, cur.num_queries + 1, cur.num_reads + 1⟩ := by
          unfold startNextRecord
          rw [numQueries_concat, numReads_concat]
        rw [hsnr]
        refine ih bins (pre ++ [r]) (idx ++ [cur]) _ _ r.qname hpre' ?_ ?_ ?_ ?_ ?_ ?_ ?_
        · rw [lastQname_concat]
        · show cur.num_reads + 1 = _
          rw [List.length_append, List.length_singleton, hnr]
        · show cur.num_queries + 1 = _
          rw [hnq, hNG]
        · show pre.length = _
          rw [numQueries_concat]
          rw [groupStart_append_diff pre r hpre hrlast _ (by omega), hnq, groupStart_total]
        · rw [numQueries_concat, hNG]
          omega
        · intro i hi
          rw [List.length_append, List.length_singleton] at hi
          rcases Nat.lt_or_ge i idx.length with hcase | hcase
          · obtain ⟨e1, e2, e3⟩ := hent i hcase
            rw [getD_append_lt _ _ _ hcase]
            refine ⟨by omega, ?_, ?_⟩
            · rw [e2, groupStart_append_diff pre r hpre hrlast _ (by omega)]
            · rcases Nat.eq_zero_or_pos i with h0 | h0
              · subst h0
                rw [show prevNq (idx ++ [cur]) 0 = 0 from rfl]
                rw [show prevNq idx 0 = 0 from rfl] at e3
                rw [e3, groupStart_append_diff pre r hpre hrlast _ (by omega)]
              · rw [prevNq_append_lt idx [cur] i (by omega) h0, e3,
                  groupStart_append_diff pre r hpre hrlast _ ?_]
                cases i with
                | zero => omega
                | succ j =>
                  show (idx.getD j default).num_queries ≤ numGroups pre
                  exact le_of_lt (hent j (by omega)).1
          · have : i = idx.length := by omega
            subst this
            rw [getD_concat_self, prevNq_concat]
            refine ⟨by omega, ?_, ?_⟩
            · rw [hnr, hnq, groupStart_append_diff pre r hpre hrlast _ (by omega),
                groupStart_total]
            · rw [hoff, groupStart_append_diff pre r hpre hrlast _ (by omega)]
        · refine strictChain_snoc (idx ++ [cur]) _ hchain (Or.inr ?_)
          rw [numQueries_concat, numReads_concat]
          show cur.num_queries < cur.num_queries + 1 ∧ cur.num_reads < cur.num_reads + 1
          omega

theorem build_valid (bins : Nat) (s : List Rec) :
    ValidIndex s (build bins s) ∧ strictChain (build bins s) = true := by
  cases s with
  | nil =>
    constructor
    · exact ⟨rfl, by intro i hi; simp [build] at hi,
        by intro i hi; simp [build] at hi,
        by intro i hi; simp [build] at hi⟩
    · rfl
  | cons r rs =>
    show ValidIndex (r :: rs) (buildLoop bins rs 1 [] 1 ⟨0, 1, 1⟩ r.qname) ∧ _
    have h := buildLoop_valid rs bins [r] [] 1 ⟨0, 1, 1⟩ r.qname (by simp) rfl rfl rfl rfl
      (by show 0 < numGroups [r]; exact numGroups_pos [r] (by simp))
      (by intro i hi; simp at hi) (by decide)
    simpa using h

/-! ### Downsizing -/

theorem downsizeGo_totals : ∀ (fuel : Nat) (a : SplitIndex) (M bin : Nat) (acc : SplitIndex)
    (lastOffset : Nat) (lastIndex : Option Nat), a ≠ [] → bin + fuel = M → 1 ≤ bin →
    ∃ d, downsizeGo a M fuel bin acc lastOffset lastIndex = some d ∧
      numQueries d = numQueries a ∧ numReads d = numReads a := by
  intro fuel
  induction fuel with
  | zero =>
    intro a M bin acc lastOffset lastIndex ha _hbin _hb1
    rw [downsizeGo]
    cases hl : a.getLast? with
    | none => exact absurd (List.getLast?_eq_none_iff.mp hl) ha
    | some last =>
      refine ⟨acc ++ [⟨lastOffset, last.num_queries, last.num_reads⟩], rfl, ?_, ?_⟩
      · rw [numQueries_concat]
        unfold numQueries
        rw [hl]
      · rw [numReads_concat]
        unfold numReads
        rw [hl]
  | succ fuel ih =>
    intro a M bin acc lastOffset lastIndex ha hbin hb1
    have hM1 : 1 ≤ M := by omega
    have hbinM : bin ≤ M := by omega
    have htle : bin * numQueries a / M ≤ numQueries a :=
      floor_le_total bin _ M hbinM hM1
    have hi0 : bisectLeft a (bin * numQueries a / M) < a.length :=
      bisect_lt_length a _ ha htle
    rw [downsizeGo, gcqs_eq_floor a bin M hbinM hM1]
    dsimp only
    set i := (if 0 < bisectLeft a (bin * numQueries a / M) ∧
        bin * numQueries a / M -
          (a.getD (bisectLeft a (bin * numQueries a / M) - 1) default).num_queries ≤
          (a.getD (bisectLeft a (bin * numQueries a / M)) default).num_queries -
          bin * numQueries a / M
      then bisectLeft a (bin * numQueries a / M) - 1
      else bisectLeft a (bin * numQueries a / M)) with hidef
    have hile : i < a.length := by
      rw [hidef]
      split <;> omega
    have hlastcase : ∀ lo, ¬ i + 1 < a.length →
        ∃ d, some (acc ++ [(⟨lo, (a.getD i default).num_queries,
            (a.getD i default).num_reads⟩ : SplitRecord)]) = some d ∧
          numQueries d = numQueries a ∧ numReads d = numReads a := by
      intro lo hp
      have hieq : i = a.length - 1 := by omega
      refine ⟨_, rfl, ?_, ?_⟩
      · rw [numQueries_concat]
        show (a.getD i default).num_queries = _
        rw [hieq, ← numQueries_eq_getD a ha]
      · rw [numReads_concat]
        show (a.getD i default).num_reads = _
        rw [hieq, ← numReads_eq_getD a ha]
    cases lastIndex with
    | none =>
      by_cases hp : i + 1 < a.length
      · rw [if_pos hp]
        exact ih a M (bin + 1) _ _ _ ha (by omega) (by omega)
      · rw [if_neg hp]
        exact hlastcase lastOffset hp
    | some li =>
      dsimp only
      by_cases hskip : i ≤ li
      · rw [if_pos hskip]
        exact ih a M (bin + 1) _ _ _ ha (by omega) (by omega)
      · rw [if_neg hskip]
        by_cases hp : i + 1 < a.length
        · rw [if_pos hp]
          exact ih a M (bin + 1) _ _ _ ha (by omega) (by omega)
        · rw [if_neg hp]
          exact hlastcase lastOffset hp

theorem downsizeReads_totals (a : SplitIndex) (M : Nat) (hM : 1 ≤ M) :
    ∃ d, downsizeReads a M = some d ∧
      numQueries d = numQueries a ∧ numReads d = numReads a := by
  unfold downsizeReads
  by_cases h : a.length < M
  · rw [if_pos h]
    exact ⟨a, rfl, rfl, rfl⟩
  · rw [if_neg h]
    have ha : a ≠ [] := by
      intro hnil
      rw [hnil] at h
      simp at h
      omega
    cases hh : a.head? with
    | none => exact absurd (List.head?_eq_none_iff.mp hh) ha
    | some first => exact downsizeGo_totals (M - 1) a M 1 [] first.offset none ha (by omega) (by omega)

theorem partial_snoc (s : List Rec) (acc : SplitIndex) (x : SplitRecord)
    (hacc : ∀ i, i < acc.length → (acc.getD i default).num_queries ≤ numGroups s ∧
      (acc.getD i default).num_reads = groupStart s ((acc.getD i default).num_queries) ∧
      (acc.getD i default).offset = groupStart s (prevNq acc i))
    (hx1 : x.num_queries ≤ numGroups s)
    (hx2 : x.num_reads = groupStart s x.num_queries)
    (hx3 : x.offset = groupStart s (numQueries acc)) :
    ∀ i, i < (acc ++ [x]).length →
      ((acc ++ [x]).getD i default).num_queries ≤ numGroups s ∧
      ((acc ++ [x]).getD i default).num_reads =
        groupStart s (((acc ++ [x]).getD i default).num_queries) ∧
      ((acc ++ [x]).getD i default).offset = groupStart s (prevNq (acc ++ [x]) i) := by
  intro i hi
  rw [List.length_append, List.length_singleton] at hi
  rcases Nat.lt_or_ge i acc.length with hcase | hcase
  · rw [getD_append_lt _ _ _ hcase]
    obtain ⟨e1, e2, e3⟩ := hacc i hcase
    refine ⟨e1, e2, ?_⟩
    rcases Nat.eq_zero_or_pos i with h0 | h0
    · subst h0
      exact e3
    · rw [prevNq_append_lt acc [x] i (by omega) h0]
      exact e3
  · have : i = acc.length := by omega
    subst this
    rw [getD_concat_self, prevNq_concat]
    exact ⟨hx1, hx2, hx3⟩

theorem valid_of_snoc (s : List Rec) (acc : SplitIndex) (x : SplitRecord)
    (hacc : ∀ i, i < acc.length → (acc.getD i default).num_queries ≤ numGroups s ∧
      (acc.getD i default).num_reads = groupStart s ((acc.getD i default).num_queries) ∧
      (acc.getD i default).offset = groupStart s (prevNq acc i))
    (hq : x.num_queries = numGroups s)
    (hr : x.num_reads = groupStart s x.num_queries)
    (ho : x.offset = groupStart s (numQueries acc)) :
    ValidIndex s (acc ++ [x]) := by
  have hp := partial_snoc s acc x hacc (le_of_eq hq) hr ho
  exact ⟨by rw [numQueries_concat, hq],
    fun i hi => (hp i hi).1, fun i hi => (hp i hi).2.1, fun i hi => (hp i hi).2.2⟩

theorem downsizeGo_valid : ∀ (fuel : Nat) (s : List Rec) (a : SplitIndex) (M bin : Nat)
    (acc : SplitIndex) (lastOffset : Nat) (lastIndex : Option Nat),
    ValidIndex s a → a ≠ [] → bin + fuel = M → 1 ≤ bin →
    (∀ i, i < acc.length → (acc.getD i default).num_queries ≤ numGroups s ∧
      (acc.getD i default).num_reads = groupStart s ((acc.getD i default).num_queries) ∧
      (acc.getD i default).offset = groupStart s (prevNq acc i)) →
    lastOffset = groupStart s (numQueries acc) →
    ∀ d, downsizeGo a M fuel bin acc lastOffset lastIndex = some d → ValidIndex s d := by
  intro fuel
  induction fuel with
  | zero =>
    intro s a M bin acc lastOffset lastIndex hVI ha _hbin _hb1 hacc hlo d hd
    rw [downsizeGo] at hd
    cases hl : a.getLast? with
    | none => exact absurd (List.getLast?_eq_none_iff.mp hl) ha
    | some last =>
      rw [hl] at hd
      have hlen : 0 < a.length := List.length_pos.mpr ha
      obtain ⟨hq2, hr2⟩ := getLast?_numQueries a last hl
      have hd' : d = acc ++ [⟨lastOffset, last.num_queries, last.num_reads⟩] := by
        cases hd
        rfl
      subst hd'
      refine valid_of_snoc s acc _ hacc ?_ ?_
        (by show lastOffset = groupStart s (numQueries acc); exact hlo)
      · show last.num_queries = _
        rw [hq2, hVI.lastNq]
      · show last.num_reads = groupStart s ((⟨lastOffset, last.num_queries,
            last.num_reads⟩ : SplitRecord)).num_queries
        show last.num_reads = groupStart s last.num_queries
        have hre := hVI.readsEq (a.length - 1) (by omega)
        rw [← numQueries_eq_getD a ha, ← numReads_eq_getD a ha] at hre
        rw [hq2, hr2, hre]
  | succ fuel ih =>
    intro s a M bin acc lastOffset lastIndex hVI ha hbin hb1 hacc hlo d hd
    have hM1 : 1 ≤ M := by omega
    have hbinM : bin ≤ M := by omega
    have htle : bin * numQueries a / M ≤ numQueries a :=
      floor_le_total bin _ M hbinM hM1
    have hi0 : bisectLeft a (bin * numQueries a / M) < a.length :=
      bisect_lt_length a _ ha htle
    rw [downsizeGo, gcqs_eq_floor a bin M hbinM hM1] at hd
    dsimp only at hd
    set i := (if 0 < bisectLeft a (bin * numQueries a / M) ∧
        bin * numQueries a / M -
          (a.getD (bisectLeft a (bin * numQueries a / M) - 1) default).num_queries ≤
          (a.getD (bisectLeft a (bin * numQueries a / M)) default).num_queries -
          bin * numQueries a / M
      then bisectLeft a (bin * numQueries a / M) - 1
      else bisectLeft a (bin * numQueries a / M)) with hidef
    have hile : i < a.length := by
      rw [hidef]
      split <;> omega
    cases lastIndex with
    | none =>
      by_cases hp : i + 1 < a.length
      · rw [if_pos hp] at hd
        refine ih s a M (bin + 1) _ _ _ hVI ha (by omega) (by omega)
          (partial_snoc s acc _ hacc
            (by show (a.getD i default).num_queries ≤ numGroups s; exact hVI.nqLe i hile)
            (by
              show (a.getD i default).num_reads =
                groupStart s ((⟨lastOffset, (a.getD i default).num_queries,
                  (a.getD i default).num_reads⟩ : SplitRecord)).num_queries
              exact hVI.readsEq i hile)
            (by show lastOffset = groupStart s (numQueries acc); exact hlo)) ?_ d hd
        have := hVI.offsetEq (i + 1) hp
        rw [prevNq_succ] at this
        rw [this, numQueries_concat]
      · rw [if_neg hp] at hd
        have hieq : i = a.length - 1 := by omega
        have hd' : d = acc ++ [⟨lastOffset, (a.getD i default).num_queries,
            (a.getD i default).num_reads⟩] := by
          cases hd
          rfl
        subst hd'
        refine valid_of_snoc s acc _ hacc ?_ ?_
          (by show lastOffset = groupStart s (numQueries acc); exact hlo)
        · show (a.getD i default).num_queries = _
          rw [hieq, ← numQueries_eq_getD a ha, hVI.lastNq]
        · show (a.getD i default).num_reads = groupStart s ((⟨lastOffset,
              (a.getD i default).num_queries,
              (a.getD i default).num_reads⟩ : SplitRecord)).num_queries
          exact hVI.readsEq i hile
    | some li =>
      dsimp only at hd
      by_cases hskip : i ≤ li
      · rw [if_pos hskip] at hd
        exact ih s a M (bin + 1) _ _ _ hVI ha (by omega) (by omega) hacc hlo d hd
      · rw [if_neg hskip] at hd
        by_cases hp : i + 1 < a.length
        · rw [if_pos hp] at hd
          refine ih s a M (bin + 1) _ _ _ hVI ha (by omega) (by omega)
            (partial_snoc s acc _ hacc
              (by show (a.getD i default).num_queries ≤ numGroups s; exact hVI.nqLe i hile)
              (by
                show (a.getD i default).num_reads =
                  groupStart s ((⟨lastOffset, (a.getD i default).num_queries,
                    (a.getD i default).num_reads⟩ : SplitRecord)).num_queries
                exact hVI.readsEq i hile)
              (by show lastOffset = groupStart s (numQueries acc); exact hlo)) ?_ d hd
          have := hVI.offsetEq (i + 1) hp
          rw [prevNq_succ] at this
          rw [this, numQueries_concat]
        · rw [if_neg hp] at hd
          have hieq : i = a.length - 1 := by omega
          have hd' : d = acc ++ [⟨lastOffset, (a.getD i default).num_queries,
              (a.getD i default).num_reads⟩] := by
            cases hd
            rfl
          subst hd'
          refine valid_of_snoc s acc _ hacc ?_ ?_
            (by show lastOffset = groupStart s (numQueries acc); exact hlo)
          · show (a.getD i default).num_queries = _
            rw [hieq, ← numQueries_eq_getD a ha, hVI.lastNq]
          · show (a.getD i default).num_reads = groupStart s ((⟨lastOffset,
                (a.getD i default).num_queries,
                (a.getD i default).num_reads⟩ : SplitRecord)).num_queries
            exact hVI.readsEq i hile

theorem head?_getD (a : SplitIndex) (f : SplitRecord) (h : a.head? = some f) :
    f = a.getD 0 default := by
  cases a with
  | nil => cases h
  | cons b bs =>
    cases h
    rfl

theorem downsizeReads_valid (s : List Rec) (a : SplitIndex) (M : Nat) (hM : 1 ≤ M)
    (hVI : ValidIndex s a) :
    ∀ d, downsizeReads a M = some d → ValidIndex s d := by
  intro d hd
  unfold downsizeReads at hd
  by_cases h : a.length < M
  · rw [if_pos h] at hd
    cases hd
    exact hVI
  · rw [if_neg h] at hd
    have ha : a ≠ [] := by
      intro hnil
      rw [hnil] at h
      simp at h
      omega
    cases hh : a.head? with
    | none => exact absurd (List.head?_eq_none_iff.mp hh) ha
    | some first =>
      rw [hh] at hd
      refine downsizeGo_valid (M - 1) s a M 1 [] first.offset none hVI ha (by omega) (by omega)
        (by intro i hi; rw [List.length_nil] at hi; omega) ?_ d hd
      rw [head?_getD a first hh]
      have := hVI.offsetEq 0 (by exact List.length_pos.mpr ha)
      rw [this]
      rfl

theorem downsizeGo_strict : ∀ (fuel : Nat) (a : SplitIndex) (M bin : Nat) (acc : SplitIndex)
    (lastOffset : Nat) (lastIndex : Option Nat), strictChain a = true → a ≠ [] →
    bin + fuel = M → 1 ≤ bin → strictChain acc = true →
    (match lastIndex with
     | none => acc = []
     | some li => li + 1 < a.length ∧ numQueries acc = (a.getD li default).num_queries ∧
         numReads acc = (a.getD li default).num_reads) →
    ∀ d, downsizeGo a M fuel bin acc lastOffset lastIndex = some d → strictChain d = true := by
  intro fuel
  induction fuel with
  | zero =>
    intro a M bin acc lastOffset lastIndex hsa ha _hbin _hb1 hsacc hli d hd
    rw [downsizeGo] at hd
    cases hl : a.getLast? with
    | none => exact absurd (List.getLast?_eq_none_iff.mp hl) ha
    | some last =>
      rw [hl] at hd
      obtain ⟨hq2, hr2⟩ := getLast?_numQueries a last hl
      have hlen : 0 < a.length := List.length_pos.mpr ha
      have hd' : d = acc ++ [⟨lastOffset, last.num_queries, last.num_reads⟩] := by
        cases hd
        rfl
      subst hd'
      refine strictChain_snoc acc _ hsacc ?_
      cases lastIndex with
      | none => exact Or.inl hli
      | some li =>
        obtain ⟨hli1, hli2, hli3⟩ := hli
        refine Or.inr ?_
        show numQueries acc < last.num_queries ∧ numReads acc < last.num_reads
        have hpw := strict_pairwise a hsa li (a.length - 1) (by omega) (by omega)
        rw [hq2, hr2, numQueries_eq_getD a ha, numReads_eq_getD a ha, hli2, hli3]
        exact hpw
  | succ fuel ih =>
    intro a M bin acc lastOffset lastIndex hsa ha hbin hb1 hsacc hli d hd
    have hM1 : 1 ≤ M := by omega
    have hbinM : bin ≤ M := by omega
    have htle : bin * numQueries a / M ≤ numQueries a :=
      floor_le_total bin _ M hbinM hM1
    have hi0 : bisectLeft a (bin * numQueries a / M) < a.length :=
      bisect_lt_length a _ ha htle
    rw [downsizeGo, gcqs_eq_floor a bin M hbinM hM1] at hd
    dsimp only at hd
    set i := (if 0 < bisectLeft a (bin * numQueries a / M) ∧
        bin * numQueries a / M -
          (a.getD (bisectLeft a (bin * numQueries a / M) - 1) default).num_queries ≤
          (a.getD (bisectLeft a (bin * numQueries a / M)) default).num_queries -
          bin * numQueries a / M
      then bisectLeft a (bin * numQueries a / M) - 1
      else bisectLeft a (bin * numQueries a / M)) with hidef
    have hile : i < a.length := by
      rw [hidef]
      split <;> omega
    have hnewchain : (match lastIndex with
        | none => acc = []
        | some li => li < i ∧ numQueries acc = (a.getD li default).num_queries ∧
            numReads acc = (a.getD li default).num_reads) →
        strictChain (acc ++ [(⟨lastOffset, (a.getD i default).num_queries,
          (a.getD i default).num_reads⟩ : SplitRecord)]) = true := by
      intro hcase
      refine strictChain_snoc acc _ hsacc ?_
      cases lastIndex with
      | none => exact Or.inl hcase
      | some li =>
        obtain ⟨hli1, hli2, hli3⟩ := hcase
        refine Or.inr ?_
        show numQueries acc < (a.getD i default).num_queries ∧
          numReads acc < (a.getD i default).num_reads
        rw [hli2, hli3]
        exact strict_pairwise a hsa li i hli1 hile
    cases lastIndex with
    | none =>
      by_cases hp : i + 1 < a.length
      · rw [if_pos hp] at hd
        refine ih a M (bin + 1) _ _ _ hsa ha (by omega) (by omega)
          (hnewchain hli) ?_ d hd
        exact ⟨hp, by rw [numQueries_concat], by rw [numReads_concat]⟩
      · rw [if_neg hp] at hd
        have hd' : d = acc ++ [⟨lastOffset, (a.getD i default).num_queries,
            (a.getD i default).num_reads⟩] := by
          cases hd
          rfl
        subst hd'
        exact hnewchain hli
    | some li =>
      dsimp only at hd
      obtain ⟨hli1, hli2, hli3⟩ := hli
      by_cases hskip : i ≤ li
      · rw [if_pos hskip] at hd
        refine ih a M (bin + 1) _ _ _ hsa ha (by omega) (by omega) hsacc
          ?_ d hd
        exact ⟨hli1, hli2, hli3⟩
      · rw [if_neg hskip] at hd
        by_cases hp : i + 1 < a.length
        · rw [if_pos hp] at hd
          refine ih a M (bin + 1) _ _ _ hsa ha (by omega) (by omega)
            (hnewchain ⟨by omega, hli2, hli3⟩) ?_ d hd
          exact ⟨hp, by rw [numQueries_concat], by rw [numReads_concat]⟩
        · rw [if_neg hp] at hd
          have hd' : d = acc ++ [⟨lastOffset, (a.getD i default).num_queries,
              (a.getD i default).num_reads⟩] := by
            cases hd
            rfl
          subst hd'
          exact hnewchain ⟨by omega, hli2, hli3⟩

theorem downsizeReads_strict (a : SplitIndex) (M : Nat) (hM : 1 ≤ M)
    (hsa : strictChain a = true) :
    ∀ d, downsizeReads a M = some d → strictChain d = true := by
  intro d hd
  unfold downsizeReads at hd
  by_cases h : a.length < M
  · rw [if_pos h] at hd
    cases hd
    exact hsa
  · rw [if_neg h] at hd
    have ha : a ≠ [] := by
      intro hnil
      rw [hnil] at h
      simp at h
      omega
    cases hh : a.head? with
    | none => exact absurd (List.head?_eq_none_iff.mp hh) ha
    | some first =>
      rw [hh] at hd
      exact downsizeGo_strict (M - 1) a M 1 [] first.offset none hsa ha (by omega) (by omega)
        rfl rfl d hd

theorem toLE_length (k : Nat) : ∀ n : Nat, (toLE k n).length = k := by
  induction k with
  | zero => intro n; rfl
  | succ k ih =>
    intro n
    rw [toLE, List.length_cons, ih]

theorem fromLE_toLE (k : Nat) : ∀ n : Nat, fromLE (toLE k n) = n % 256 ^ k := by
  induction k with
  | zero => intro n; simp [toLE, fromLE, Nat.mod_one]
  | succ k ih =>
    intro n
    rw [toLE, fromLE, ih, Nat.pow_succ', Nat.mod_mul]

theorem splitOffN_append (n : Nat) (bs rest : List Nat) (h : bs.length = n) :
    splitOffN n (bs ++ rest) = some (bs, rest) := by
  subst h
  unfold splitOffN
  rw [if_neg (by rw [List.length_append]; omega), List.take_left, List.drop_left]

theorem deserializeRecord_serializeRecord (r : SplitRecord) (rest : List Nat)
    (ho : r.offset < 2 ^ 64) (hq : r.num_queries < 2 ^ 64) (hr : r.num_reads < 2 ^ 64) :
    deserializeRecord (serializeRecord r ++ rest) = some (r, rest) := by
  have h8 : (256 : Nat) ^ 8 = 2 ^ 64 := by norm_num
  unfold serializeRecord deserializeRecord
  rw [List.append_assoc, List.append_assoc, splitOffN_append 8 _ _ (toLE_length 8 _)]
  dsimp only
  rw [splitOffN_append 8 _ _ (toLE_length 8 _)]
  dsimp only
  rw [splitOffN_append 8 _ _ (toLE_length 8 _)]
  dsimp only
  rw [fromLE_toLE, fromLE_toLE, fromLE_toLE, h8,
    Nat.mod_eq_of_lt ho, Nat.mod_eq_of_lt hq, Nat.mod_eq_of_lt hr]

theorem parseRecords_flatMap (idx : SplitIndex) : ∀ rest : List Nat,
    (∀ r ∈ idx, r.offset < 2 ^ 64 ∧ r.num_queries < 2 ^ 64 ∧ r.num_reads < 2 ^ 64) →
    parseRecords idx.length (idx.flatMap serializeRecord ++ rest) = some idx := by
  induction idx with
  | nil => intro rest _; rfl
  | cons r rs ih =>
    intro rest hb
    have hr := hb r (List.mem_cons_self r rs)
    rw [List.flatMap_cons, List.append_assoc, List.length_cons, parseRecords,
      deserializeRecord_serializeRecord r _ hr.1 hr.2.1 hr.2.2]
    dsimp only
    rw [ih _ (fun x hx => hb x (List.mem_cons_of_mem r hx))]

theorem checkHeader_three (a b c : Nat) (rest : List Nat)
    (ha : a ≠ 10) (hb : b ≠ 10) (hc : c ≠ 10) :
    checkHeader (magicFront ++ [a, b, c] ++ 10 :: rest) = some ([a, b, c], rest) := by
  have hfi : (magicFront ++ [a, b, c] ++ 10 :: rest).findIdx? (fun x => x = 10) = some 15 := by
    simp [magicFront, List.findIdx?_cons, ha, hb, hc]
  unfold checkHeader
  rw [hfi]
  simp [magicFront]

theorem serialize_shape (idx : SplitIndex) : serialize idx =
    magicFront ++ [49, 46, 48] ++ 10 :: (toLE 8 idx.length ++ idx.flatMap serializeRecord) := by
  unfold serialize versionBytes
  simp [List.append_assoc]

theorem deserialize_serialize (idx : SplitIndex) (hlen : idx.length < 2 ^ 64)
    (hb : ∀ r ∈ idx, r.offset < 2 ^ 64 ∧ r.num_queries < 2 ^ 64 ∧ r.num_reads < 2 ^ 64) :
    deserialize (serialize idx) = some idx := by
  have h8 : (256 : Nat) ^ 8 = 2 ^ 64 := by norm_num
  rw [deserialize, serialize_shape,
    checkHeader_three 49 46 48 _ (by omega) (by omega) (by omega)]
  dsimp only
  rw [if_pos (by rw [versionBytes]), splitOffN_append 8 _ _ (toLE_length 8 _)]
  dsimp only
  rw [fromLE_toLE, h8, Nat.mod_eq_of_lt hlen]
  have h := parseRecords_flatMap idx [] hb
  rw [List.append_nil] at h
  exact h

theorem deserializeRecord_short (bytes : List Nat) (h : bytes.length < 24) :
    deserializeRecord bytes = none := by
  unfold deserializeRecord splitOffN
  by_cases h8 : bytes.length < 8
  · rw [if_pos h8]
  · rw [if_neg h8]
    dsimp only
    by_cases h16 : (bytes.drop 8).length < 8
    · rw [if_pos h16]
    · rw [if_neg h16]
      dsimp only
      rw [if_pos (by simp at h16 ⊢; omega)]

theorem deserializeRecord_long (bytes : List Nat) (h : 24 ≤ bytes.length) :
    ∃ r, deserializeRecord bytes = some (r, bytes.drop 24) := by
  unfold deserializeRecord splitOffN
  rw [if_neg (by omega)]
  dsimp only
  rw [if_neg (by simp; omega)]
  dsimp only
  rw [if_neg (by simp; omega)]
  dsimp only
  rw [List.drop_drop, List.drop_drop]
  exact ⟨_, rfl⟩

theorem parseRecords_short : ∀ (n : Nat) (bytes : List Nat), bytes.length < 24 * n →
    parseRecords n bytes = none := by
  intro n
  induction n with
  | zero => intro bytes h; exact absurd h (by omega)
  | succ n ih =>
    intro bytes h
    by_cases h24 : bytes.length < 24
    · rw [parseRecords, deserializeRecord_short bytes h24]
    · obtain ⟨r, hr⟩ := deserializeRecord_long bytes (by omega)
      rw [parseRecords, hr]
      dsimp only
      rw [ih (bytes.drop 24) (by rw [List.length_drop]; omega)]

theorem getD_getElem {α : Type} (l : List α) (i : Nat) (d : α) (h : i < l.length) :
    l.getD i d = l[i] := by
  rw [List.getD_eq_getElem?_getD, List.getElem?_eq_getElem h]
  rfl

theorem findIdx?_getD (p : Nat → Bool) (l : List Nat) (pos : Nat)
    (h : l.findIdx? p = some pos) : pos < l.length ∧ p (l.getD pos 0) = true := by
  obtain ⟨h1, h2⟩ := List.findIdx?_eq_some_iff_findIdx_eq.mp h
  subst h2
  refine ⟨h1, ?_⟩
  rw [getD_getElem _ _ _ h1]
  exact List.findIdx_getElem

theorem checkHeader_version (bytes ver rest : List Nat)
    (h : checkHeader bytes = some (ver, rest)) (hv : ver = versionBytes) :
    bytes.take 16 = magicFront ++ versionBytes ++ [10] := by
  subst hv
  unfold checkHeader at h
  cases hfi : bytes.findIdx? (fun c => c = 10) with
  | none =>
    rw [hfi] at h
    exact absurd h (by simp)
  | some pos =>
    rw [hfi] at h
    dsimp only at h
    by_cases h12 : (bytes.take (pos + 1)).length < 12
    · rw [if_pos h12] at h
      exact absurd h (by simp)
    · rw [if_neg h12] at h
      by_cases hm : (bytes.take (pos + 1)).take 12 = magicFront
      · rw [if_pos hm] at h
        have hver : ((bytes.take (pos + 1)).drop 12).dropLast = versionBytes :=
          congrArg Prod.fst (Option.some.inj h)
        obtain ⟨hposlt, hp10⟩ := findIdx?_getD _ bytes pos hfi
        have hten : bytes.getD pos 0 = 10 := of_decide_eq_true hp10
        have h15 : pos = 15 := by
          have hl := congrArg List.length hver
          simp [List.length_dropLast, List.length_drop, List.length_take, versionBytes] at hl
          omega
        subst h15
        have hblen : 16 ≤ bytes.length := by omega
        rw [List.take_take] at hm
        norm_num at hm
        rw [List.drop_take] at hver
        norm_num at hver
        have ht : ((bytes.drop 12).take 4).length = 4 := by
          simp [List.length_take, List.length_drop]
          omega
        have htne : (bytes.drop 12).take 4 ≠ [] := by
          intro hc
          rw [hc] at ht
          simp at ht
        obtain ⟨x, hx⟩ : ∃ x, (bytes.drop 12).take 4 = versionBytes ++ [x] :=
          ⟨((bytes.drop 12).take 4).getLast htne,
            by rw [← hver, List.dropLast_append_getLast]⟩
        have hx10 : x = 10 := by
          have h1 : ((bytes.drop 12).take 4).getD 3 0 = x := by
            rw [hx]
            rfl
          have h2 : ((bytes.drop 12).take 4).getD 3 0 = bytes.getD 15 0 := by
            rw [getD_getElem ((bytes.drop 12).take 4) 3 0 (by omega),
              getD_getElem bytes 15 0 (by omega),
              List.getElem_take, List.getElem_drop]
          rw [← h1, h2, hten]
        have h164 : bytes.take 16 = bytes.take 12 ++ (bytes.drop 12).take 4 :=
          List.take_add bytes 12 4
        rw [h164, hm, hx, hx10, List.append_assoc]
      · rw [if_neg hm] at h
        exact absurd h (by simp)

theorem deserialize_ok_magic16 (bytes : List Nat) (idx : SplitIndex)
    (h : deserialize bytes = some idx) :
    bytes.take 16 = magicFront ++ versionBytes ++ [10] := by
  unfold deserialize at h
  cases hch : checkHeader bytes with
  | none =>
    rw [hch] at h
    exact absurd h (by simp)
  | some vr =>
    rw [hch] at h
    obtain ⟨ver, rest⟩ := vr
    dsimp only at h
    by_cases hv : ver = versionBytes
    · exact checkHeader_version bytes ver rest hch hv
    · rw [if_neg hv] at h
      exact absurd h (by simp)

theorem deserialize_bad_magic16 (bytes : List Nat)
    (h : bytes.take 16 ≠ magicFront ++ versionBytes ++ [10]) :
    deserialize bytes = none := by
  cases hd : deserialize bytes with
  | none => rfl
  | some idx => exact absurd (deserialize_ok_magic16 bytes idx hd) h

theorem set_version_take16 (idx : SplitIndex) (j b : Nat) (hj : j < 3) :
    ((serialize idx).set (12 + j) b).take 16 =
      magicFront ++ (versionBytes.set j b ++ [10]) := by
  rw [serialize_shape]
  interval_cases j <;> rfl

theorem deserialize_set_version (idx : SplitIndex) (j b : Nat) (hj : j < 3)
    (hb : b ≠ versionBytes.getD j 0) :
    deserialize ((serialize idx).set (12 + j) b) = none := by
  apply deserialize_bad_magic16
  rw [set_version_take16 idx j b hj]
  intro hc
  have h1 : versionBytes.set j b ++ [10] = versionBytes ++ [10] :=
    List.append_cancel_left (show magicFront ++ (versionBytes.set j b ++ [10]) =
        magicFront ++ (versionBytes ++ [10]) by rw [hc, List.append_assoc])
  have h2 : versionBytes.set j b = versionBytes := List.append_cancel_right h1
  have h3 : (versionBytes.set j b).getD j 0 = versionBytes.getD j 0 := by rw [h2]
  rw [getD_getElem _ j 0 (by simp [versionBytes, List.length_set]; omega),
    List.getElem_set_self] at h3
  exact hb h3

theorem deserialize_overrun (n : Nat) (body : List Nat) (hn : n < 2 ^ 64)
    (hshort : body.length < 24 * n) :
    deserialize (magicFront ++ versionBytes ++ 10 :: (toLE 8 n ++ body)) = none := by
  have h8 : (256 : Nat) ^ 8 = 2 ^ 64 := by norm_num
  have hv : (versionBytes : List Nat) = [49, 46, 48] := rfl
  rw [hv]
  unfold deserialize
  rw [checkHeader_three 49 46 48 _ (by omega) (by omega) (by omega)]
  dsimp only
  rw [if_pos (by rw [versionBytes]), splitOffN_append 8 _ _ (toLE_length 8 _)]
  dsimp only
  rw [fromLE_toLE, h8, Nat.mod_eq_of_lt hn, parseRecords_short n body hshort]

theorem valid_numReads (s : List Rec) (idx : SplitIndex) (hVI : ValidIndex s idx) :
    numReads idx = s.length := by
  cases hidx : idx with
  | nil =>
    have h0 : numGroups s = 0 := by
      rw [← hVI.lastNq, hidx]
      rfl
    rw [(numGroups_eq_zero_iff s).mp h0]
    rfl
  | cons r rs =>
    have hne : idx ≠ [] := by rw [hidx]; exact List.cons_ne_nil r rs
    rw [← hidx]
    have hlt : idx.length - 1 < idx.length := by
      have := List.length_pos.mpr hne
      omega
    rw [numReads_eq_getD idx hne, hVI.readsEq (idx.length - 1) hlt,
      ← numQueries_eq_getD idx hne, hVI.lastNq, groupStart_total]

theorem chainSeekStart_position (c : ChainState) (p : Nat) :
    chainStreamPosition (chainSeekStart c p).2 = p := by
  unfold chainSeekStart chainStreamPosition
  by_cases h : c.frontLen ≤ p
  · rw [if_pos h]
    simp only [if_pos]
    omega
  · rw [if_neg h]
    simp only [Bool.false_eq_true, if_false]
    omega

theorem chainSeek_current_zero (c : ChainState) :
    chainSeek c (SeekFrom.current 0) = (chainStreamPosition c, c) := rfl

theorem readUntil_no_delim (d : Nat) : ∀ l : List Nat, (∀ x ∈ l, x ≠ d) →
    readUntil d l = (l, []) := by
  intro l
  induction l with
  | nil => intro _; rfl
  | cons b bs ih =>
    intro h
    rw [readUntil, if_neg (h b (List.mem_cons_self b bs)), ih (fun x hx => h x (List.mem_cons_of_mem b hx))]

theorem readUntil_delim (d : Nat) : ∀ (pre post : List Nat), (∀ x ∈ pre, x ≠ d) →
    readUntil d (pre ++ d :: post) = (pre ++ [d], post) := by
  intro pre
  induction pre with
  | nil =>
    intro post _
    rw [List.nil_append, readUntil, if_pos rfl]
    rfl
  | cons b bs ih =>
    intro post h
    rw [List.cons_append, readUntil, if_neg (h b (List.mem_cons_self b bs)),
      ih post (fun x hx => h x (List.mem_cons_of_mem b hx))]
    rfl

theorem splitNext_delim (d : Nat) (pre post : List Nat) (hpre : ∀ x ∈ pre, x ≠ d) :
    splitNext d (pre ++ d :: post) = (some pre, post) := by
  unfold splitNext
  rw [readUntil_delim d pre post hpre]
  simp only
  rw [if_neg (by simp), if_pos (by simp [List.getLastD_concat]), List.dropLast_concat]

theorem splitNext_trailing (d : Nat) (l : List Nat) (hl : l ≠ []) (hld : ∀ x ∈ l, x ≠ d) :
    splitNext d l = (some l, []) := by
  unfold splitNext
  rw [readUntil_no_delim d l hld]
  simp only
  rw [if_neg (by simp [List.length_eq_zero]; exact hl)]
  have hlast : l.getLastD 0 ∈ l := by
    cases l with
    | nil => exact absurd rfl hl
    | cons a as =>
      rw [List.getLastD_cons, ← List.getLast_eq_getLastD]
      exact List.getLast_mem (List.cons_ne_nil a as)
  rw [if_neg (hld _ hlast)]

theorem readUntil_ne_nil (d : Nat) (s : List Nat) (hs : s ≠ []) :
    (readUntil d s).1 ≠ [] := by
  cases s with
  | nil => exact absurd rfl hs
  | cons b bs =>
    rw [readUntil]
    by_cases h : b = d
    · rw [if_pos h]
      exact List.cons_ne_nil b []
    · rw [if_neg h]
      exact List.cons_ne_nil b _

theorem splitNext_none_iff (d : Nat) (s : List Nat) :
    (splitNext d s).1 = none ↔ s = [] := by
  constructor
  · intro h
    by_contra hs
    have hne := readUntil_ne_nil d s hs
    unfold splitNext at h
    rw [if_neg (by simp [List.length_eq_zero]; exact hne)] at h
    by_cases hlast : (readUntil d s).1.getLastD 0 = d
    · rw [if_pos hlast] at h
      exact absurd h (by simp)
    · rw [if_neg hlast] at h
      exact absurd h (by simp)
  · intro h
    rw [h]
    rfl

theorem fastqNext_complete (name seq sep qual : List Nat)
    (hname : ∀ x ∈ name, x ≠ 10) (hseq : ∀ x ∈ seq, x ≠ 10) (hsep : ∀ x ∈ sep, x ≠ 10)
    (hqual : ∀ x ∈ qual, x ≠ 10) (hqne : qual ≠ []) :
    fastqNext (name ++ 10 :: (seq ++ 10 :: (sep ++ 10 :: qual))) =
      (some (some ⟨name, seq, sep, qual⟩), []) := by
  unfold fastqNext
  rw [splitNext_delim 10 name _ hname]
  dsimp only
  rw [splitNext_delim 10 seq _ hseq]
  dsimp only
  rw [splitNext_delim 10 sep _ hsep]
  dsimp only
  rw [splitNext_trailing 10 qual hqne hqual]

/-- C1: for every source record stream, every split index built from it by
`SplitIndex::build` (optionally downsized by `downsize_reads`), and every chunk
count `N ≥ 1`, concatenating the records emitted by `fast_forward` followed by
`write_chunk` for chunk indices `0, …, N−1` (empty chunks contributing
nothing) reproduces the source record sequence exactly, in order. -/
theorem c1_chunk_partition (s : List Rec) (bins M N : Nat) (idx : SplitIndex)
    (hN : 1 ≤ N) (hM : 1 ≤ M)
    (hidx : idx = build bins s ∨ downsizeReads (build bins s) M = some idx) :
    chunkConcat s idx N = s := by
  refine chunkConcat_eq_of_valid s idx N ?_ hN
  rcases hidx with h | h
  · rw [h]
    exact (build_valid bins s).1
  · exact downsizeReads_valid s (build bins s) M hM (build_valid bins s).1 idx h

theorem c1_chunk_partition_witness : (1 : Nat) ≤ 2 ∧
    chunkConcat [⟨0, 0⟩, ⟨0, 1⟩, ⟨1, 2⟩, ⟨2, 3⟩] (build 2 [⟨0, 0⟩, ⟨0, 1⟩, ⟨1, 2⟩, ⟨2, 3⟩]) 2 =
      [⟨0, 0⟩, ⟨0, 1⟩, ⟨1, 2⟩, ⟨2, 3⟩] :=
  ⟨by decide, c1_chunk_partition [⟨0, 0⟩, ⟨0, 1⟩, ⟨1, 2⟩, ⟨2, 3⟩] 2 1 2
    (build 2 [⟨0, 0⟩, ⟨0, 1⟩, ⟨1, 2⟩, ⟨2, 3⟩]) (by decide) (by decide) (Or.inl rfl)⟩

/-- C2: for every split index with total query count `T` and every
`num_chunks = N ≥ 1`, `get_chunk_query_start` returns `Ok 0` at `k = 0`,
`Ok T` at `k = N`, `Ok (k*d + (k*r)/N)` with `(d, r) = divmod T N` for every
`k ≤ N` — which equals `⌊k*T/N⌋` exactly — and an error if and only if
`k > N`. -/
theorem c2_get_chunk_query_start (idx : SplitIndex) (k N : Nat) (hN : 1 ≤ N) :
    getChunkQueryStart idx 0 N = some 0 ∧
    getChunkQueryStart idx N N = some (numQueries idx) ∧
    (k ≤ N → getChunkQueryStart idx k N =
        some (k * (numQueries idx / N) + k * (numQueries idx % N) / N) ∧
      getChunkQueryStart idx k N = some (k * numQueries idx / N)) ∧
    (getChunkQueryStart idx k N = none ↔ N < k) := by
  refine ⟨?_, ?_, ?_, ?_⟩
  · rw [getChunkQueryStart, if_pos (by omega)]
    simp
  · rw [gcqs_eq_floor idx N N le_rfl hN, floor_total _ _ hN]
  · intro hk
    exact ⟨by rw [getChunkQueryStart, if_pos hk], gcqs_eq_floor idx k N hk hN⟩
  · rw [getChunkQueryStart]
    by_cases hk : k ≤ N
    · rw [if_pos hk]
      simp
      omega
    · rw [if_neg hk]
      simp
      omega

theorem c2_get_chunk_query_start_witness : (1 : Nat) ≤ 3 ∧
    getChunkQueryStart [⟨0, 2, 2⟩, ⟨2, 5, 7⟩] 3 3 = some (numQueries [⟨0, 2, 2⟩, ⟨2, 5, 7⟩]) :=
  ⟨by decide, (c2_get_chunk_query_start [⟨0, 2, 2⟩, ⟨2, 5, 7⟩] 2 3 (by decide)).2.1⟩

/-- C3, counterexample: the claim asserts `downsize_reads(idx, M) = idx`
whenever `M ≥ len(idx)`, "in particular at `M == len(idx)`" — but the source
guard is strict (`num_bins > self.len()`), so at `M = len(idx)` the function
re-bins instead of returning a clone.  Here `len(idx) = 4 = M` and the result
differs from `idx`. -/
theorem c3_downsize_at_len_counterexample :
    ([⟨0, 1, 1⟩, ⟨1, 2, 2⟩, ⟨2, 4, 4⟩, ⟨4, 5, 5⟩] : SplitIndex).length = 4 ∧
    downsizeReads [⟨0, 1, 1⟩, ⟨1, 2, 2⟩, ⟨2, 4, 4⟩, ⟨4, 5, 5⟩] 4 ≠
      some [⟨0, 1, 1⟩, ⟨1, 2, 2⟩, ⟨2, 4, 4⟩, ⟨4, 5, 5⟩] := by
  decide

/-- C3, amended: `downsize_reads(idx, M)` returns a clone of `idx` exactly on
the early-return path `M > len(idx)` (strict); at `M = len(idx)` the claim
fails (see the counterexample). -/
theorem c3_downsize_early_return (idx : SplitIndex) (M : Nat) (h : idx.length < M) :
    downsizeReads idx M = some idx := by
  unfold downsizeReads
  rw [if_pos h]

theorem c3_downsize_early_return_witness :
    ([⟨0, 1, 1⟩] : SplitIndex).length < 3 ∧ downsizeReads [⟨0, 1, 1⟩] 3 = some [⟨0, 1, 1⟩] :=
  ⟨by decide, c3_downsize_early_return [⟨0, 1, 1⟩] 3 (by decide)⟩

/-- C4: the claim (and the spec) give the output path's extension priority
over the `--output-format` flag, and the flag priority over the input type;
but `get_output_record_type` consults the *input* path's extension, never the
output path.  Consequently, with a recognized input extension (`bam`) the flag
is ignored entirely: requesting `--output-format fastq` for a BAM input still
yields `Bam`, contradicting the claim's "the chunk is written as FASTQ". -/
theorem c4_output_format_ignored :
    getOutputRecordType (some "bam") (some "fastq") RecordType.Bam = some RecordType.Bam ∧
    getOutputRecordType (some "bam") (some "fastq") RecordType.Bam ≠ some RecordType.Fastq ∧
    (∀ fmt : Option String, getOutputRecordType (some "bam") fmt RecordType.Bam =
      some RecordType.Bam) :=
  ⟨rfl, by decide, fun _ => rfl⟩

/-- C5: the last split record of `SplitIndex::build`'s result carries the
number of query groups of the stream as `num_queries` and the number of
records as `num_reads`, and `downsize_reads` (whose bin-count argument is a
`NonZero<usize>`, hence `1 ≤ M`) preserves both totals, including on the
early-return warning path. -/
theorem c5_totals (bins : Nat) (s : List Rec) (a : SplitIndex) (M : Nat) (hM : 1 ≤ M) :
    numQueries (build bins s) = numGroups s ∧
    numReads (build bins s) = s.length ∧
    ∃ d, downsizeReads a M = some d ∧
      numQueries d = numQueries a ∧ numReads d = numReads a := by
  refine ⟨(build_valid bins s).1.lastNq, valid_numReads s _ (build_valid bins s).1, ?_⟩
  exact downsizeReads_totals a M hM

theorem c5_totals_witness : (1 : Nat) ≤ 2 ∧
    numQueries (build 1 [⟨0, 0⟩, ⟨1, 1⟩, ⟨1, 2⟩]) = numGroups [⟨0, 0⟩, ⟨1, 1⟩, ⟨1, 2⟩] ∧
    numReads (build 1 [⟨0, 0⟩, ⟨1, 1⟩, ⟨1, 2⟩]) = 3 ∧
    ∃ d, downsizeReads [⟨0, 3, 5⟩] 2 = some d ∧
      numQueries d = numQueries [⟨0, 3, 5⟩] ∧ numReads d = numReads [⟨0, 3, 5⟩] :=
  ⟨by decide, (c5_totals 1 [⟨0, 0⟩, ⟨1, 1⟩, ⟨1, 2⟩] [⟨0, 3, 5⟩] 2 (by decide)).1,
    (c5_totals 1 [⟨0, 0⟩, ⟨1, 1⟩, ⟨1, 2⟩] [⟨0, 3, 5⟩] 2 (by decide)).2.1,
    (c5_totals 1 [⟨0, 0⟩, ⟨1, 1⟩, ⟨1, 2⟩] [⟨0, 3, 5⟩] 2 (by decide)).2.2⟩

/-- C6: for every index produced by `SplitIndex::build` and every index
produced from one by `downsize_reads`, the per-record `num_queries` and
`num_reads` sequences are strictly increasing between consecutive split
records. -/
theorem c6_strictly_increasing (bins M : Nat) (s : List Rec) (hM : 1 ≤ M) :
    List.Chain' (fun r1 r2 => r1.num_queries < r2.num_queries ∧ r1.num_reads < r2.num_reads)
      (build bins s) ∧
    ∀ d, downsizeReads (build bins s) M = some d →
      List.Chain' (fun r1 r2 => r1.num_queries < r2.num_queries ∧ r1.num_reads < r2.num_reads)
        d := by
  constructor
  · exact (strictChain_iff _).mp (build_valid bins s).2
  · intro d hd
    exact (strictChain_iff _).mp
      (downsizeReads_strict (build bins s) M hM (build_valid bins s).2 d hd)

theorem c6_strictly_increasing_witness : (1 : Nat) ≤ 1 ∧
    List.Chain' (fun r1 r2 => r1.num_queries < r2.num_queries ∧ r1.num_reads < r2.num_reads)
      (build 1 [⟨0, 0⟩, ⟨1, 1⟩]) :=
  ⟨by decide, (c6_strictly_increasing 1 1 [⟨0, 0⟩, ⟨1, 1⟩] (by decide)).1⟩

/-- C7: `deserialize (serialize idx) = Ok idx` for every index whose fields
are 64-bit values (in the source the fields are `usize`/`u64`, so the bounds
hold for every representable index, however nonsensical its contents). -/
theorem c7_roundtrip (idx : SplitIndex) (hlen : idx.length < 2 ^ 64)
    (hb : ∀ r ∈ idx, r.offset < 2 ^ 64 ∧ r.num_queries < 2 ^ 64 ∧ r.num_reads < 2 ^ 64) :
    deserialize (serialize idx) = some idx :=
  deserialize_serialize idx hlen hb

theorem c7_roundtrip_witness :
    ([⟨5, 3, 1⟩, ⟨900, 2, 7⟩] : SplitIndex).length < 2 ^ 64 ∧
    deserialize (serialize [⟨5, 3, 1⟩, ⟨900, 2, 7⟩]) = some [⟨5, 3, 1⟩, ⟨900, 2, 7⟩] :=
  ⟨by decide, c7_roundtrip [⟨5, 3, 1⟩, ⟨900, 2, 7⟩] (by decide) (by decide)⟩

/-- C8: `deserialize` fails (returns an error, never panics) whenever the
input does not begin with the literal `"split-index "` followed by `"1.0"`
and a newline; whenever the remaining bytes are too short for the declared
record count (24 bytes per record); and in particular whenever any single
byte of the version string of a serialized index is changed. -/
theorem c8_deserialize_errors :
    (∀ bytes : List Nat, bytes.take 16 ≠ magicFront ++ versionBytes ++ [10] →
      deserialize bytes = none) ∧
    (∀ (n : Nat) (body : List Nat), n < 2 ^ 64 → body.length < 24 * n →
      deserialize (magicFront ++ versionBytes ++ 10 :: (toLE 8 n ++ body)) = none) ∧
    (∀ (idx : SplitIndex) (j b : Nat), j < 3 → b ≠ versionBytes.getD j 0 →
      deserialize ((serialize idx).set (12 + j) b) = none) :=
  ⟨deserialize_bad_magic16, deserialize_overrun, deserialize_set_version⟩

theorem c8_deserialize_errors_witness :
    deserialize [0, 1, 2] = none ∧
    deserialize (magicFront ++ versionBytes ++ 10 :: (toLE 8 2 ++ [7])) = none ∧
    deserialize ((serialize [⟨1, 2, 3⟩]).set (12 + 1) 57) = none :=
  ⟨c8_deserialize_errors.1 [0, 1, 2] (by decide),
    c8_deserialize_errors.2.1 2 [7] (by decide) (by decide),
    c8_deserialize_errors.2.2 [⟨1, 2, 3⟩] 1 57 (by decide) (by decide)⟩

/-- C9: for a seekable chain, `seek(Start(p))` followed by `seek(Current(0))`
returns `p` for every `p` within the chain's length; and `seek(Current(0))`
merely reports the logical position without changing the state, so a
subsequent read returns exactly what it would have without the seek. -/
theorem c9_seek_neutrality (front back : ByteStream) (p : Nat) (c : ChainState) (n : Nat)
    (hp : p ≤ chainLength (mkChain front back)) :
    (chainSeek (chainSeek (mkChain front back) (SeekFrom.start p)).2 (SeekFrom.current 0)).1
      = p ∧
    chainSeek c (SeekFrom.current 0) = (chainStreamPosition c, c) ∧
    chainRead (chainSeek c (SeekFrom.current 0)).2 n = chainRead c n := by
  refine ⟨?_, rfl, rfl⟩
  show (chainSeek (chainSeekStart (mkChain front back) p).2 (SeekFrom.current 0)).1 = p
  rw [chainSeek_current_zero]
  exact chainSeekStart_position (mkChain front back) p

theorem c9_seek_neutrality_witness :
    (2 : Nat) ≤ chainLength (mkChain ⟨[1, 2, 3], 0⟩ ⟨[4, 5], 0⟩) ∧
    (chainSeek (chainSeek (mkChain ⟨[1, 2, 3], 0⟩ ⟨[4, 5], 0⟩) (SeekFrom.start 2)).2
      (SeekFrom.current 0)).1 = 2 :=
  ⟨by decide, (c9_seek_neutrality ⟨[1, 2, 3], 0⟩ ⟨[4, 5], 0⟩ 2 (mkChain ⟨[1, 2, 3], 0⟩ ⟨[4, 5], 0⟩)
    1 (by decide)).1⟩

/-- C10: the `Split` iterator yields every delimiter-terminated run with the
trailing delimiter removed; a final nonempty run without a trailing delimiter
is still yielded, unmodified; `next` returns `None` exactly when no bytes
remain; and consequently `FastqReader` parses a trailing FASTQ record whose
last line lacks a final newline. -/
theorem c10_split_and_fastq (d : Nat) (pre post l s name seq sep qual : List Nat)
    (hpre : ∀ x ∈ pre, x ≠ d) (hl : l ≠ []) (hld : ∀ x ∈ l, x ≠ d)
    (hname : ∀ x ∈ name, x ≠ 10) (hseq : ∀ x ∈ seq, x ≠ 10) (hsep : ∀ x ∈ sep, x ≠ 10)
    (hqual : ∀ x ∈ qual, x ≠ 10) (hqne : qual ≠ []) :
    splitNext d (pre ++ d :: post) = (some pre, post) ∧
    splitNext d l = (some l, []) ∧
    ((splitNext d s).1 = none ↔ s = []) ∧
    fastqNext (name ++ 10 :: (seq ++ 10 :: (sep ++ 10 :: qual))) =
      (some (some ⟨name, seq, sep, qual⟩), []) :=
  ⟨splitNext_delim d pre post hpre, splitNext_trailing d l hl hld,
    splitNext_none_iff d s, fastqNext_complete name seq sep qual hname hseq hsep hqual hqne⟩

theorem c10_split_and_fastq_witness :
    splitNext 10 ([65, 66] ++ 10 :: [67]) = (some [65, 66], [67]) ∧
    splitNext 10 [81, 82] = (some [81, 82], []) ∧
    fastqNext ([64] ++ 10 :: ([65] ++ 10 :: ([43] ++ 10 :: [70]))) =
      (some (some ⟨[64], [65], [43], [70]⟩), []) :=
  ⟨(c10_split_and_fastq 10 [65, 66] [67] [81, 82] [] [64] [65] [43] [70]
      (by decide) (by decide) (by decide) (by decide) (by decide) (by decide) (by decide)
      (by decide)).1,
    (c10_split_and_fastq 10 [65, 66] [67] [81, 82] [] [64] [65] [43] [70]
      (by decide) (by decide) (by decide) (by decide) (by decide) (by decide) (by decide)
      (by decide)).2.1,
    (c10_split_and_fastq 10 [65, 66] [67] [81, 82] [] [64] [65] [43] [70]
      (by decide) (by decide) (by decide) (by decide) (by decide) (by decide) (by decide)
      (by decide)).2.2.2⟩
